import Mathlib

/-!
# spec-kit MCP server: handlers of `main.go`

A shallow embedding of the six tool handlers of `main.go` and of the library
calls they make.  Go strings are Lean strings; `fmt.Sprintf` with `%s` / `%v`
is string concatenation.  The handlers talk to three things outside the
program: `encoding/json` (decoding of the raw arguments), the operating system
(`os.MkdirAll`, `os.WriteFile`) and the external program run through
`os/exec`.  Their answers are not fixed by the program, so they are fields of
an environment `Env` over which every theorem quantifies; every call the
handler makes is recorded, in order, in a trace of events.
`path/filepath.Join` and `Clean` are purely lexical and are embedded in full
(Unix flavour, separator `/`).  A string is read character by character; the
separator and the dot are ASCII, so `Clean` reads UTF-8 bytes the same way.
-/

namespace SpecKit

/-! ## `path/filepath` -/

/-- The `os.IsPathSeparator` test on Unix. -/
def IsPathSeparator (c : Char) : Bool := c == '/'

/-- The inner loop of the `..` case of `filepath.Clean`: starting from write
index `w`, step back while `w > dotdot` and the byte at `w` is not a separator. -/
def backtrack (out : List Char) (dotdot : Nat) : Nat → Nat
  | 0 => 0
  | w + 1 =>
    if w + 1 > dotdot && !IsPathSeparator (out.getD (w + 1) '/') then backtrack out dotdot w
    else w + 1

/-- The main loop of `filepath.Clean`.  The second list is the unread part of
the path (`path[r:]`), `out` the buffer written so far (`out.w` is its length),
`dotdot` the index where `..` must stop.  Every iteration consumes at least
one byte, so a fuel equal to the length of the unread part is enough. -/
def cleanLoop (rooted : Bool) : Nat → List Char → List Char → Nat → List Char
  | 0, _, out, _ => out
  | _ + 1, [], out, _ => out
  | fuel + 1, c :: rest, out, dotdot =>
    if IsPathSeparator c then
      -- empty path element
      cleanLoop rooted fuel rest out dotdot
    else if c = '.' ∧ (rest = [] ∨ IsPathSeparator (rest.headD '/') = true) then
      -- . element
      cleanLoop rooted fuel rest out dotdot
    else if c = '.' ∧ rest.headD '/' = '.' ∧
        (rest.tail = [] ∨ IsPathSeparator (rest.tail.headD '/') = true) then
      -- .. element: remove to last separator
      if out.length > dotdot then
        cleanLoop rooted fuel rest.tail
          (out.take (backtrack out dotdot (out.length - 1))) dotdot
      else if !rooted then
        let out1 := if out.length > 0 then out ++ ['/'] else out
        let out2 := out1 ++ ['.', '.']
        cleanLoop rooted fuel rest.tail out2 out2.length
      else
        cleanLoop rooted fuel rest.tail out dotdot
    else
      -- real path element: add slash if needed, copy element
      let out1 := if (rooted && out.length != 1) || (!rooted && out.length != 0)
        then out ++ ['/'] else out
      cleanLoop rooted fuel (rest.dropWhile (fun x => !IsPathSeparator x))
        (out1 ++ c :: rest.takeWhile (fun x => !IsPathSeparator x)) dotdot

/-- The buffer `filepath.Clean` has built when its loop ends, for a non-empty
path given as a list of characters. -/
def cleanBuf (p : List Char) : List Char :=
  if IsPathSeparator (p.headD 'x') then cleanLoop true p.length p.tail ['/'] 1
  else cleanLoop false p.length p [] 0

/-- Go `filepath.Clean` on Unix (no volume names, `FromSlash` is the identity). -/
def Clean (path : String) : String :=
  if path = "" then "."
  else
    let out := cleanBuf path.data
    -- Turn empty string into "."
    if out.length = 0 then "." else String.mk out

/-- Go `filepath.Join` on Unix: the elements from the first non-empty one, joined
with the separator and cleaned; the empty string when every element is empty. -/
def Join : List String → String
  | [] => ""
  | e :: rest =>
    if e ≠ "" then Clean (String.intercalate "/" (e :: rest))
    else Join rest

/-! ## The MCP data the handlers build -/

/-- The content kinds of the MCP SDK; the handlers only ever build `TextContent`. -/
inductive Content where
  | TextContent (Text : String)
  | ImageContent (Data : String) (MIMEType : String)
  | AudioContent (Data : String) (MIMEType : String)
  | ResourceLink (URI : String)
  | EmbeddedResource (URI : String)
  deriving DecidableEq

/-- The `mcp.CallToolResult` fields the handlers touch.  `IsError` is never set. -/
structure CallToolResult where
  Content : List Content
  IsError : Bool := false
  deriving DecidableEq

/-- The parameters of a tool call: the tool name and the raw JSON arguments. -/
structure CallToolParams where
  Name : String
  Arguments : String
  deriving DecidableEq

/-- A `mcp.CallToolRequest`. -/
structure CallToolRequest where
  Params : CallToolParams
  deriving DecidableEq

/-- The server: its configured working directory. -/
structure SpecKitServer where
  workingDir : String
  deriving DecidableEq

/-! ## The world outside the program -/

/-- The part of the file system the handlers can change: regular files with
their content, and directories, both by the path given to the OS. -/
structure World where
  files : String → Option String
  dirs : String → Bool

/-- One call the handler makes to the outside, with what came back: the error
of `os.MkdirAll` / `os.WriteFile` (`none` is nil), and for
`exec.Command(name, arg...)` run in `Dir` the combined output and the error. -/
inductive Event where
  | MkdirAll (path : String) (perm : Nat) (err : Option String)
  | Command (name : String) (arg : List String) (Dir : String)
      (output : String) (err : Option String)
  | WriteFile (name : String) (data : String) (perm : Nat) (err : Option String)
  deriving DecidableEq

/-- What the libraries and the OS answer.
* `Unmarshal data tags`: `json.Unmarshal` of raw arguments into a struct whose
  string fields carry the JSON tags `tags`; on success the value of each field
  by tag (a field that the arguments omit keeps the zero value `""`), else the
  error text.
* `mkdirError`, `writeError`: the error of `os.MkdirAll` / `os.WriteFile`, if any.
* `run`: `exec.Command(name, arg...)` with `cmd.Dir` set, then
  `CombinedOutput`: the captured output, the error (non-zero exit or failure
  to start) if any, and the world the program leaves behind. -/
structure Env where
  Unmarshal : String → List String → Except String (String → String)
  mkdirError : World → String → Nat → Option String
  writeError : World → String → String → Nat → Option String
  run : World → String → List String → String → String × Option String × World

/-- The parent `os.MkdirAll` recurses on, `path[:i+1]`: the path without its
last element and without the separators that follow that element. -/
def parentPath (path : List Char) : List Char :=
  ((path.reverse.dropWhile IsPathSeparator).dropWhile (fun c => !IsPathSeparator c)).reverse

/-- The chain of parents `os.MkdirAll` goes through, nearest first, until the
parent is empty.  Every parent is shorter than its path, so a fuel equal to
the length of the path is enough. -/
def parentPaths : Nat → List Char → List (List Char)
  | 0, _ => []
  | fuel + 1, path =>
    if (parentPath path).length > 0 then parentPath path :: parentPaths fuel (parentPath path)
    else []

/-- The name of a directory without the separators at its end; the root stays `/`. -/
def trimSeparators (p : List Char) : List Char :=
  if (p.reverse.dropWhile IsPathSeparator).reverse = [] ∧ p ≠ [] then ['/']
  else (p.reverse.dropWhile IsPathSeparator).reverse

/-- The parent directories of `path`, nearest first: `/srv/work`, `/srv` and `/`
for `/srv/work/demo`. -/
def parentDirs (path : String) : List String :=
  (parentPaths path.length path.data).map (fun p => String.mk (trimSeparators p))

/-- The call `os.MkdirAll`: on success the directory exists, and so does every
parent directory on the way to it (the missing ones are created); nothing else
changes.  On failure the model keeps the world as it was; no statement below
is about the world after a failed call. -/
def MkdirAll (env : Env) (w : World) (path : String) (perm : Nat) : Option String × World :=
  match env.mkdirError w path perm with
  | some e => (some e, w)
  | none =>
    (none, { w with dirs := fun p =>
      if p = path ∨ p ∈ parentDirs path then true else w.dirs p })

/-- The call `os.WriteFile`: on success the file holds exactly `data`. -/
def WriteFile (env : Env) (w : World) (name data : String) (perm : Nat) :
    Option String × World :=
  match env.writeError w name data perm with
  | some e => (some e, w)
  | none => (none, { w with files := fun p => if p = name then some data else w.files p })

/-- What a handler call leaves: the two Go return values (`err = none` is a nil
error), the calls made to the outside in order, and the final world. -/
structure Outcome where
  result : CallToolResult
  err : Option String
  trace : List Event
  world : World

/-- The one shape of result every return statement builds: a single text block. -/
def textResult (t : String) : CallToolResult := { Content := [Content.TextContent t] }

/-- The text of the first content block of a result (`""` if it is not text). -/
def CallToolResult.text (r : CallToolResult) : String :=
  match r.Content with
  | Content.TextContent t :: _ => t
  | _ => ""

/-! ## The handlers -/

/-- The handler `handleInitProject`. -/
def handleInitProject (env : Env) (s : SpecKitServer) (req : CallToolRequest) (w : World) :
    Outcome :=
  match env.Unmarshal req.Params.Arguments ["project_name", "ai_assistant"] with
  | .error err => ⟨textResult ("Error parsing arguments: " ++ err), none, [], w⟩
  | .ok args =>
    let ProjectName := args "project_name"
    if ProjectName = "" then
      ⟨textResult "Error: project_name is required", none, [], w⟩
    else
      let AIAssistant := if args "ai_assistant" = "" then "claude" else args "ai_assistant"
      -- Create project directory
      let projectPath := Join [s.workingDir, ProjectName]
      match MkdirAll env w projectPath 0o755 with
      | (some err, w1) =>
        ⟨textResult ("Error creating project directory: " ++ err), none,
          [Event.MkdirAll projectPath 0o755 (some err)], w1⟩
      | (none, w1) =>
        -- Run spec-kit init command
        let arg := ["init", ProjectName, "--ai-assistant", AIAssistant]
        match env.run w1 "specify" arg s.workingDir with
        | (output, some err, w2) =>
          ⟨textResult ("Error running spec-kit init: " ++ output), none,
            [Event.MkdirAll projectPath 0o755 none,
              Event.Command "specify" arg s.workingDir output (some err)], w2⟩
        | (output, none, w2) =>
          ⟨textResult ("✅ Initialized spec-kit project \x27" ++ ProjectName ++ "\x27 with "
              ++ AIAssistant ++ " assistant\n\n" ++ output), none,
            [Event.MkdirAll projectPath 0o755 none,
              Event.Command "specify" arg s.workingDir output none], w2⟩

/-- The handler `handleSpecify`. -/
def handleSpecify (env : Env) (s : SpecKitServer) (req : CallToolRequest) (w : World) :
    Outcome :=
  match env.Unmarshal req.Params.Arguments ["feature_description"] with
  | .error err => ⟨textResult ("Error parsing arguments: " ++ err), none, [], w⟩
  | .ok args =>
    let FeatureDescription := args "feature_description"
    if FeatureDescription = "" then
      ⟨textResult "Error: feature_description is required", none, [], w⟩
    else
      -- Create a temporary spec file
      let specFile := Join [s.workingDir, "temp_spec.md"]
      -- Run spec-kit specify command
      let arg := ["specify", FeatureDescription]
      match env.run w "specify" arg s.workingDir with
      | (output, some err, w1) =>
        ⟨textResult ("Error running spec-kit specify: " ++ output), none,
          [Event.Command "specify" arg s.workingDir output (some err)], w1⟩
      | (output, none, w1) =>
        -- Save the output to a file
        match WriteFile env w1 specFile output 0o644 with
        | (some err, w2) =>
          ⟨textResult ("Error saving spec file: " ++ err), none,
            [Event.Command "specify" arg s.workingDir output none,
              Event.WriteFile specFile output 0o644 (some err)], w2⟩
        | (none, w2) =>
          ⟨textResult ("✅ Created specification from description\n\n**Specification:**\n"
              ++ output ++ "\n\n**Saved to:** " ++ specFile), none,
            [Event.Command "specify" arg s.workingDir output none,
              Event.WriteFile specFile output 0o644 none], w2⟩

/-- The handler `handlePlan`. -/
def handlePlan (env : Env) (s : SpecKitServer) (req : CallToolRequest) (w : World) :
    Outcome :=
  match env.Unmarshal req.Params.Arguments ["spec_file"] with
  | .error err => ⟨textResult ("Error parsing arguments: " ++ err), none, [], w⟩
  | .ok args =>
    let SpecFile := args "spec_file"
    if SpecFile = "" then
      ⟨textResult "Error: spec_file is required", none, [], w⟩
    else
      -- Run spec-kit plan command
      let arg := ["plan", SpecFile]
      match env.run w "specify" arg s.workingDir with
      | (output, some err, w1) =>
        ⟨textResult ("Error running spec-kit plan: " ++ output), none,
          [Event.Command "specify" arg s.workingDir output (some err)], w1⟩
      | (output, none, w1) =>
        ⟨textResult ("✅ Generated implementation plan\n\n**Plan:**\n" ++ output), none,
          [Event.Command "specify" arg s.workingDir output none], w1⟩

/-- The handler `handleImplement`. -/
def handleImplement (env : Env) (s : SpecKitServer) (req : CallToolRequest) (w : World) :
    Outcome :=
  match env.Unmarshal req.Params.Arguments ["spec_file", "output_dir"] with
  | .error err => ⟨textResult ("Error parsing arguments: " ++ err), none, [], w⟩
  | .ok args =>
    let SpecFile := args "spec_file"
    if SpecFile = "" then
      ⟨textResult "Error: spec_file is required", none, [], w⟩
    else
      let OutputDir :=
        if args "output_dir" = "" then Join [s.workingDir, "generated"] else args "output_dir"
      -- Run spec-kit implement command
      let arg := ["implement", SpecFile, "--output", OutputDir]
      match env.run w "specify" arg s.workingDir with
      | (output, some err, w1) =>
        ⟨textResult ("Error running spec-kit implement: " ++ output), none,
          [Event.Command "specify" arg s.workingDir output (some err)], w1⟩
      | (output, none, w1) =>
        ⟨textResult ("✅ Generated code from specification\n\n**Output:**\n" ++ output
            ++ "\n\n**Generated files in:** " ++ OutputDir), none,
          [Event.Command "specify" arg s.workingDir output none], w1⟩

/-- The handler `handleAnalyze`. -/
def handleAnalyze (env : Env) (s : SpecKitServer) (req : CallToolRequest) (w : World) :
    Outcome :=
  match env.Unmarshal req.Params.Arguments ["project_path"] with
  | .error err => ⟨textResult ("Error parsing arguments: " ++ err), none, [], w⟩
  | .ok args =>
    let ProjectPath := args "project_path"
    if ProjectPath = "" then
      ⟨textResult "Error: project_path is required", none, [], w⟩
    else
      -- Run spec-kit analyze command
      let arg := ["analyze", ProjectPath]
      match env.run w "specify" arg s.workingDir with
      | (output, some err, w1) =>
        ⟨textResult ("Error running spec-kit analyze: " ++ output), none,
          [Event.Command "specify" arg s.workingDir output (some err)], w1⟩
      | (output, none, w1) =>
        ⟨textResult ("✅ Analyzed project state\n\n**Analysis:**\n" ++ output), none,
          [Event.Command "specify" arg s.workingDir output none], w1⟩

/-- The handler `handleTasks`. -/
def handleTasks (env : Env) (s : SpecKitServer) (req : CallToolRequest) (w : World) :
    Outcome :=
  match env.Unmarshal req.Params.Arguments ["spec_file"] with
  | .error err => ⟨textResult ("Error parsing arguments: " ++ err), none, [], w⟩
  | .ok args =>
    let SpecFile := args "spec_file"
    if SpecFile = "" then
      ⟨textResult "Error: spec_file is required", none, [], w⟩
    else
      -- Run spec-kit tasks command
      let arg := ["tasks", SpecFile]
      match env.run w "specify" arg s.workingDir with
      | (output, some err, w1) =>
        ⟨textResult ("Error running spec-kit tasks: " ++ output), none,
          [Event.Command "specify" arg s.workingDir output (some err)], w1⟩
      | (output, none, w1) =>
        ⟨textResult ("✅ Generated actionable tasks\n\n**Tasks:**\n" ++ output), none,
          [Event.Command "specify" arg s.workingDir output none], w1⟩

/-! ## The tool registry -/

/-- The `mcp.Tool` fields `addTools` sets: of the input schema, the names under
`properties` and the list under `required`. -/
structure Tool where
  Name : String
  Description : String
  properties : List String
  required : List String
  deriving DecidableEq

/-- The type of a tool handler in this embedding. -/
abbrev ToolHandler := Env → SpecKitServer → CallToolRequest → World → Outcome

/-- The tool `init_project`. -/
def initTool : Tool :=
  { Name := "init_project", Description := "Initialize a new spec-kit project",
    properties := ["project_name", "ai_assistant"], required := ["project_name"] }

/-- The tool `specify`. -/
def specifyTool : Tool :=
  { Name := "specify", Description := "Create feature specification from natural language",
    properties := ["feature_description"], required := ["feature_description"] }

/-- The tool `plan`. -/
def planTool : Tool :=
  { Name := "plan", Description := "Generate implementation plan from specification",
    properties := ["spec_file"], required := ["spec_file"] }

/-- The tool `implement`. -/
def implementTool : Tool :=
  { Name := "implement", Description := "Generate code from specification",
    properties := ["spec_file", "output_dir"], required := ["spec_file"] }

/-- The tool `analyze`. -/
def analyzeTool : Tool :=
  { Name := "analyze", Description := "Analyze project state and provide insights",
    properties := ["project_path"], required := ["project_path"] }

/-- The tool `tasks`. -/
def tasksTool : Tool :=
  { Name := "tasks", Description := "Break down work into actionable tasks",
    properties := ["spec_file"], required := ["spec_file"] }

/-- The registrations `addTools` makes, in order: each tool with its handler. -/
def addTools : List (Tool × ToolHandler) :=
  [(initTool, handleInitProject), (specifyTool, handleSpecify), (planTool, handlePlan),
   (implementTool, handleImplement), (analyzeTool, handleAnalyze), (tasksTool, handleTasks)]

/-! ## Vocabulary of the statements -/

/-- The constructor `NewSpecKitServer`, as far as the handlers see it. -/
def NewSpecKitServer (workingDir : String) : SpecKitServer := { workingDir := workingDir }

/-- The working directory `main` picks from the value of the environment
variable `SPEC_KIT_WORKING_DIR` (`""` when unset). -/
def mainWorkingDir (getenv : String) : String :=
  if getenv = "" then "." else getenv

/-- The event is a directory creation. -/
def Event.isMkdirAll : Event → Bool
  | Event.MkdirAll _ _ _ => true
  | _ => false

/-- The string `s` begins with `p` (Go `strings.HasPrefix`). -/
def startsWith (s p : String) : Prop := p.data <+: s.data

/-- The string `s` has `sub` as a contiguous part (Go `strings.Contains`). -/
def containsText (s sub : String) : Prop := sub.data <:+: s.data

instance (s p : String) : Decidable (startsWith s p) :=
  inferInstanceAs (Decidable (p.data <+: s.data))

instance (s sub : String) : Decidable (containsText s sub) :=
  inferInstanceAs (Decidable (sub.data <:+: s.data))

/-- The event is a run of an external program. -/
def Event.isCommand : Event → Bool
  | Event.Command _ _ _ _ _ => true
  | _ => false

/-- The event is a file write. -/
def Event.isWriteFile : Event → Bool
  | Event.WriteFile _ _ _ _ => true
  | _ => false

/-- The path of the entry `name` of the directory with clean path `base`. -/
def childPath (base name : String) : String :=
  if base = "/" then "/" ++ name
  else if base = "." then name
  else base ++ "/" ++ name

/-- A name that is one real path element: not empty, without a separator,
and neither `.` nor `..`. -/
def isPlainName (name : String) : Prop :=
  name ≠ "" ∧ '/' ∉ name.data ∧ name ≠ "." ∧ name ≠ ".."

instance (name : String) : Decidable (isPlainName name) :=
  inferInstanceAs (Decidable (_ ∧ _ ∧ _ ∧ _))

/-- The path elements of a path: the pieces between its separators. -/
def pathElems : List Char → List (List Char)
  | [] => [[]]
  | c :: cs =>
    if IsPathSeparator c then [] :: pathElems cs
    else
      match pathElems cs with
      | e :: es => (c :: e) :: es
      | [] => [[c]]

/-- Path elements put together again, with one separator between neighbours. -/
def joinElems : List (List Char) → List Char
  | [] => []
  | [e] => e
  | e :: es => e ++ '/' :: joinElems es

/-- A clean relative path without `..`: every path element is a real element,
none is empty, `.` or `..` (so no separator at either end and none doubled). -/
def isCleanRelative (name : String) : Prop :=
  ∀ e ∈ pathElems name.data, e ≠ [] ∧ e ≠ ['.'] ∧ e ≠ ['.', '.']

instance (name : String) : Decidable (isCleanRelative name) :=
  inferInstanceAs (Decidable (∀ e ∈ pathElems name.data, e ≠ [] ∧ e ≠ ['.'] ∧ e ≠ ['.', '.']))

/-- The argument list the external program is to be given, tool by tool, as the
specification lists the subcommand shapes; `ai_assistant` and `output_dir`
stand for their resolved values (default `claude`, default the join of the
working directory and `generated`). -/
def specifyArguments (toolName workingDir : String) (args : String → String) : List String :=
  if toolName = "init_project" then
    ["init", args "project_name", "--ai-assistant",
      if args "ai_assistant" = "" then "claude" else args "ai_assistant"]
  else if toolName = "specify" then ["specify", args "feature_description"]
  else if toolName = "plan" then ["plan", args "spec_file"]
  else if toolName = "implement" then
    ["implement", args "spec_file", "--output",
      if args "output_dir" = "" then Join [workingDir, "generated"] else args "output_dir"]
  else if toolName = "analyze" then ["analyze", args "project_path"]
  else if toolName = "tasks" then ["tasks", args "spec_file"]
  else []

/-! ## Vocabulary of the proofs about `Clean` -/

/-- The separator-or-nothing that precedes a real path element. -/
def withSep (rooted : Bool) (out : List Char) : List Char :=
  if (rooted && out.length != 1) || (!rooted && out.length != 0) then out ++ ['/'] else out

/-- A single real path element. -/
def plainElem (e : List Char) : Prop :=
  e ≠ [] ∧ '/' ∉ e ∧ e ≠ ['.'] ∧ e ≠ ['.', '.']

/-- What the loop keeps true of the buffer of an unrooted path: it does not
start with a separator, and if it starts with a dot then a second byte
follows, not a separator, and `dotdot` is not 1. -/
def okBuf (out : List Char) (dd : Nat) : Prop :=
  dd ≤ out.length ∧ out.head? ≠ some '/' ∧
    (out.head? = some '.' → dd ≠ 1 ∧ out.getD 1 '/' ≠ '/')

/-- The buffer of a rooted path: the separator, then real elements joined. -/
def goodRooted (out : List Char) : Prop :=
  ∃ es : List (List Char), (∀ e ∈ es, plainElem e) ∧ out = '/' :: joinElems es

/-! ## Concrete environments for worked examples -/

/-- An environment whose answers are fixed: the arguments decode to `decoded`,
`os.MkdirAll` and `os.WriteFile` return `mkdirErr` and `writeErr`, and the
external program prints `output`, ends with `runErr` and changes nothing. -/
def fixedEnv (decoded : Except String (String → String)) (mkdirErr writeErr : Option String)
    (output : String) (runErr : Option String) : Env :=
  { Unmarshal := fun _ _ => decoded
    mkdirError := fun _ _ _ => mkdirErr
    writeError := fun _ _ _ _ => writeErr
    run := fun w _ _ _ => (output, runErr, w) }

/-- A decoded argument struct given by its non-empty fields. -/
def fieldsOf (kvs : List (String × String)) : String → String :=
  fun tag => (kvs.lookup tag).getD ""

/-- A world with no file and no directory. -/
def emptyWorld : World := { files := fun _ => none, dirs := fun _ => false }

/-- A request for the tool `name` with raw arguments `raw`. -/
def requestOf (name raw : String) : CallToolRequest := { Params := { Name := name, Arguments := raw } }

/-- The server `main` starts when `SPEC_KIT_WORKING_DIR` is unset. -/
def defaultServer : SpecKitServer := NewSpecKitServer (mainWorkingDir "")

/-- A server whose working directory is `/srv/work`. -/
def workServer : SpecKitServer := NewSpecKitServer "/srv/work"

/-- Arguments of `init_project` that give only `ai_assistant`. -/
def envMissingName : Env :=
  fixedEnv (.ok (fieldsOf [("ai_assistant", "gemini")])) none none "" none

/-- Arguments with `spec_file` set; the external program exits with status 1. -/
def envRunFails : Env :=
  fixedEnv (.ok (fieldsOf [("spec_file", "spec.md")])) none none
    "specify: spec.md: no such file\n" (some "exit status 1")

/-- Arguments with `spec_file` set and no `output_dir`; the program succeeds. -/
def envImplementDefault : Env :=
  fixedEnv (.ok (fieldsOf [("spec_file", "spec.md")])) none none "done\n" none

/-- Arguments of `specify`; the program and the file write succeed. -/
def envSpecifyOk : Env :=
  fixedEnv (.ok (fieldsOf [("feature_description", "login page")])) none none
    "# Login page\n" none

/-- Arguments of `specify`; the program succeeds, the file write fails. -/
def envSpecifyWriteFails : Env :=
  fixedEnv (.ok (fieldsOf [("feature_description", "login page")])) none
    (some "open /srv/work/temp_spec.md: permission denied") "# Login page\n" none

/-- Arguments of `init_project` with only the project name `demo`. -/
def envInitDemo : Env :=
  fixedEnv (.ok (fieldsOf [("project_name", "demo")])) none none "ok\n" none

/-- Arguments of `init_project` with the project name `docs/api`. -/
def envInitNested : Env :=
  fixedEnv (.ok (fieldsOf [("project_name", "docs/api")])) none none "ok\n" none

/-- Arguments of `init_project` with the project name `../../etc`. -/
def envInitDotDot : Env :=
  fixedEnv (.ok (fieldsOf [("project_name", "../../etc")])) none none "ok\n" none

/-- Raw arguments that are not JSON at all: decoding fails. -/
def envMalformed : Env :=
  fixedEnv (.error "invalid character \x27p\x27 looking for beginning of value") none none
    "" none

/-- Arguments of `init_project` for `demo`; the directory cannot be created. -/
def envInitMkdirFails : Env :=
  fixedEnv (.ok (fieldsOf [("project_name", "demo")]))
    (some "mkdir /srv/work/demo: permission denied") none "ok\n" none

/-- A world in which `/srv/work/temp_spec.md` already holds an older text. -/
def worldWithOldSpec : World :=
  { files := fun p => if p = "/srv/work/temp_spec.md" then some "old text" else none
    dirs := fun p => p == "/srv/work" }

/-! ## Helper lemmas on strings -/

theorem startsWith_append (p r : String) : startsWith (p ++ r) p := by
  unfold startsWith
  rw [String.data_append]
  exact List.prefix_append _ _

/-- A string contains its own right part. -/
theorem containsText_append_right (p r : String) : containsText (p ++ r) r := by
  unfold containsText
  rw [String.data_append]
  exact (List.suffix_append _ _).isInfix

/-- What the left part contains, the whole contains. -/
theorem containsText_append_of_left (a b sub : String) (h : containsText a sub) :
    containsText (a ++ b) sub := by
  unfold containsText at *
  rw [String.data_append]
  exact h.trans (List.prefix_append _ _).isInfix

/-- What the left part starts with, the whole starts with. -/
theorem startsWith_append_of_left (a b p : String) (h : startsWith a p) :
    startsWith (a ++ b) p := by
  unfold startsWith at *
  rw [String.data_append]
  exact h.trans (List.prefix_append _ _)

/-! ## Helper lemmas on `Clean` -/

theorem cleanLoop_nil (rooted : Bool) (fuel : Nat) (out : List Char) (dd : Nat) :
    cleanLoop rooted fuel [] out dd = out := by
  cases fuel <;> rfl

/-- Copying an element without separator copies all of it. -/
theorem takeWhile_notSep_of_not_mem (l : List Char) (h : '/' ∉ l) :
    l.takeWhile (fun x => !IsPathSeparator x) = l := by
  rw [List.takeWhile_eq_self_iff]
  intro x hx
  have : x ≠ '/' := fun hc => h (hc ▸ hx)
  simp [IsPathSeparator, this]

/-- After an element without separator nothing is left. -/
theorem dropWhile_notSep_of_not_mem (l : List Char) (h : '/' ∉ l) :
    l.dropWhile (fun x => !IsPathSeparator x) = [] := by
  rw [List.dropWhile_eq_nil_iff]
  intro x hx
  have : x ≠ '/' := fun hc => h (hc ▸ hx)
  simp [IsPathSeparator, this]

/-- One real path element is appended to the buffer, after a separator if the
buffer needs one. -/
theorem cleanLoop_plain (rooted : Bool) (fuel : Nat) (e out : List Char) (dd : Nat)
    (he : plainElem e) :
    cleanLoop rooted (fuel + 1) e out dd = withSep rooted out ++ e := by
  obtain ⟨hne, hsep, hdot, hdd⟩ := he
  cases e with
  | nil => exact absurd rfl hne
  | cons c rest =>
    have hc : c ≠ '/' := fun h => hsep (h ▸ List.mem_cons_self _ _)
    have hrest : '/' ∉ rest := fun h => hsep (List.mem_cons_of_mem _ h)
    have h1 : IsPathSeparator c = false := by simp [IsPathSeparator, hc]
    have h2 : ¬ (c = '.' ∧ (rest = [] ∨ IsPathSeparator (rest.headD '/') = true)) := by
      rintro ⟨rfl, h | h⟩
      · exact hdot (by rw [h])
      · cases rest with
        | nil => exact hdot rfl
        | cons d r =>
          simp [IsPathSeparator] at h
          exact hrest (h ▸ List.mem_cons_self _ _)
    have h3 : ¬ (c = '.' ∧ rest.headD '/' = '.' ∧
        (rest.tail = [] ∨ IsPathSeparator (rest.tail.headD '/') = true)) := by
      rintro ⟨rfl, hh, h⟩
      cases rest with
      | nil => simp at hh
      | cons d r =>
        simp at hh
        subst hh
        rcases h with h | h
        · simp at h
          exact hdd (by rw [h])
        · cases r with
          | nil => exact hdd rfl
          | cons x r' =>
            simp [IsPathSeparator] at h
            exact hrest (h ▸ List.mem_cons_of_mem _ (List.mem_cons_self _ _))
    rw [cleanLoop]
    simp only [h1, Bool.false_eq_true, if_false, h2, h3]
    rw [takeWhile_notSep_of_not_mem rest hrest, dropWhile_notSep_of_not_mem rest hrest,
      cleanLoop_nil]
    rfl

/-- The element copied from `l ++ / ++ r` is the one copied from `l`. -/
theorem takeWhile_notSep_append (l r : List Char) :
    (l ++ '/' :: r).takeWhile (fun x => !IsPathSeparator x)
      = l.takeWhile (fun x => !IsPathSeparator x) := by
  induction l with
  | nil => simp [IsPathSeparator]
  | cons a l ih =>
    simp only [List.cons_append, List.takeWhile_cons]
    split
    · rw [ih]
    · rfl

/-- What follows that element in `l ++ / ++ r`. -/
theorem dropWhile_notSep_append (l r : List Char) :
    (l ++ '/' :: r).dropWhile (fun x => !IsPathSeparator x)
      = l.dropWhile (fun x => !IsPathSeparator x) ++ '/' :: r := by
  induction l with
  | nil => simp [IsPathSeparator]
  | cons a l ih =>
    simp only [List.cons_append, List.dropWhile_cons]
    split
    · rw [ih]
    · rfl

/-- Dropping does not lengthen. -/
theorem length_dropWhile_le (p : Char → Bool) (l : List Char) :
    (l.dropWhile p).length ≤ l.length := by
  induction l with
  | nil => simp
  | cons a l ih =>
    simp only [List.dropWhile_cons]
    split
    · exact Nat.le_succ_of_le ih
    · exact Nat.le_refl _

/-- At the end of the path `headD` already answers with a separator. -/
theorem nil_or_sep (l : List Char) :
    (l = [] ∨ IsPathSeparator (l.headD '/') = true) ↔ IsPathSeparator (l.headD '/') = true := by
  constructor
  · rintro (h | h)
    · subst h
      rfl
    · exact h
  · exact Or.inr

/-- The same test, when a separator and more follow `l`. -/
theorem nil_or_sep_append (l r : List Char) :
    (l ++ '/' :: r = [] ∨ IsPathSeparator (l.headD '/') = true)
      ↔ IsPathSeparator (l.headD '/') = true := by
  constructor
  · rintro (h | h)
    · simp at h
    · exact h
  · exact Or.inr

/-- The next byte of `l ++ / ++ r`, with separator as the default, is that of `l`. -/
theorem headD_append_sep (l r : List Char) : (l ++ '/' :: r).headD '/' = l.headD '/' := by
  cases l <;> rfl

/-- A separator, then one real element. -/
theorem cleanLoop_sep_plain (rooted : Bool) (fuel : Nat) (e out : List Char) (dd : Nat)
    (he : plainElem e) :
    cleanLoop rooted (fuel + 2) ('/' :: e) out dd = withSep rooted out ++ e := by
  rw [cleanLoop]
  simp only [IsPathSeparator, beq_self_eq_true, if_true]
  exact cleanLoop_plain rooted fuel e out dd he

/-- Reading `W`, a separator and one real element `e` gives the buffer of `W`
with `e` appended, whatever the fuels as long as they suffice. -/
theorem cleanLoop_append_plain (rooted : Bool) (e : List Char) (he : plainElem e) :
    ∀ (n : Nat) (W : List Char), W.length ≤ n →
      ∀ (f1 f2 : Nat) (out : List Char) (dd : Nat), W.length + 2 ≤ f1 → W.length ≤ f2 →
      cleanLoop rooted f1 (W ++ '/' :: e) out dd
        = withSep rooted (cleanLoop rooted f2 W out dd) ++ e := by
  intro n
  induction n with
  | zero =>
    intro W hW f1 f2 out dd h1 _
    have : W = [] := List.length_eq_zero.mp (Nat.le_zero.mp hW)
    subst this
    obtain ⟨g, rfl⟩ : ∃ g, f1 = g + 2 := ⟨f1 - 2, by simp at h1; omega⟩
    rw [List.nil_append, cleanLoop_sep_plain rooted g e out dd he, cleanLoop_nil]
  | succ n ih =>
    intro W hW f1 f2 out dd h1 h2
    cases W with
    | nil =>
      obtain ⟨g, rfl⟩ : ∃ g, f1 = g + 2 := ⟨f1 - 2, by simp at h1; omega⟩
      rw [List.nil_append, cleanLoop_sep_plain rooted g e out dd he, cleanLoop_nil]
    | cons c W' =>
      simp only [List.length_cons] at hW h1 h2
      obtain ⟨g1, rfl⟩ : ∃ g, f1 = g + 1 := ⟨f1 - 1, by omega⟩
      obtain ⟨g2, rfl⟩ : ∃ g, f2 = g + 1 := ⟨f2 - 1, by omega⟩
      have hW' : W'.length ≤ n := by omega
      simp only [List.cons_append]
      rw [cleanLoop, cleanLoop]
      by_cases hc1 : IsPathSeparator c = true
      · simp only [hc1, if_true]
        exact ih W' hW' g1 g2 out dd (by omega) (by omega)
      · simp only [hc1, Bool.false_eq_true, if_false, nil_or_sep, headD_append_sep,
          nil_or_sep_append]
        by_cases hc2 : c = '.' ∧ IsPathSeparator (W'.headD '/') = true
        · rw [if_pos hc2, if_pos hc2]
          exact ih W' hW' g1 g2 out dd (by omega) (by omega)
        · rw [if_neg hc2, if_neg hc2]
          cases W' with
          | nil =>
            have hc : c ≠ '.' := fun h => hc2 ⟨h, rfl⟩
            simp only [hc, false_and, if_false, List.nil_append, List.takeWhile_nil,
              List.dropWhile_nil, cleanLoop_nil]
            have hd : ('/' :: e).dropWhile (fun x => !IsPathSeparator x) = '/' :: e := by
              simp [IsPathSeparator]
            have ht : ('/' :: e).takeWhile (fun x => !IsPathSeparator x) = [] := by
              simp [IsPathSeparator]
            rw [hd, ht]
            obtain ⟨g, rfl⟩ : ∃ g, g1 = g + 2 := ⟨g1 - 2, by omega⟩
            rw [cleanLoop_sep_plain rooted g e _ dd he]
          | cons d W'' =>
            simp only [List.length_cons] at hW' h1 h2
            simp only [List.cons_append, List.headD_cons, List.tail_cons, headD_append_sep]
            by_cases hc3 : c = '.' ∧ d = '.' ∧ IsPathSeparator (W''.headD '/') = true
            · rw [if_pos hc3, if_pos hc3]
              have ih' := fun o k => ih W'' (by omega) g1 g2 o k (by omega) (by omega)
              by_cases hgt : out.length > dd
              · rw [if_pos hgt, if_pos hgt]
                exact ih' _ _
              · rw [if_neg hgt, if_neg hgt]
                by_cases hr : (!rooted) = true
                · rw [if_pos hr, if_pos hr]
                  exact ih' _ _
                · rw [if_neg hr, if_neg hr]
                  exact ih' _ _
            · rw [if_neg hc3, if_neg hc3]
              have hd := dropWhile_notSep_append (d :: W'') e
              have ht := takeWhile_notSep_append (d :: W'') e
              simp only [List.cons_append] at hd ht
              rw [hd, ht]
              have hlen := length_dropWhile_le (fun x => !IsPathSeparator x) (d :: W'')
              simp only [List.length_cons] at hlen
              exact ih ((d :: W'').dropWhile (fun x => !IsPathSeparator x)) (by omega) g1 g2 _ dd
                (by omega) (by omega)

/-- The backtracking stops between `dotdot` and its start, at `dotdot` or on a
separator. -/
theorem backtrack_bounds (out : List Char) (dd : Nat) :
    ∀ w, dd ≤ w → dd ≤ backtrack out dd w ∧ backtrack out dd w ≤ w ∧
      (backtrack out dd w = dd ∨ out.getD (backtrack out dd w) '/' = '/') := by
  intro w
  induction w with
  | zero =>
    intro h
    simp only [backtrack]
    exact ⟨h, Nat.le_refl _, Or.inl (Nat.le_zero.mp h).symm⟩
  | succ w ih =>
    intro h
    rw [backtrack]
    by_cases hc : (decide (w + 1 > dd) && !IsPathSeparator (out.getD (w + 1) '/')) = true
    · rw [if_pos hc]
      simp only [Bool.and_eq_true, decide_eq_true_eq] at hc
      obtain ⟨h1, h2, h3⟩ := ih (by omega)
      exact ⟨h1, by omega, h3⟩
    · rw [if_neg hc]
      refine ⟨h, Nat.le_refl _, ?_⟩
      simp only [Bool.and_eq_true, decide_eq_true_eq, not_and, Bool.not_eq_true,
        Bool.not_eq_false', Bool.not_eq_true'] at hc
      by_cases hlt : w + 1 > dd
      · right
        have := hc hlt
        simpa [IsPathSeparator] using this
      · left
        omega

/-- The buffer of a rooted path always starts with the separator. -/
theorem cleanLoop_rooted_head (fuel : Nat) :
    ∀ (p out : List Char), out.head? = some '/' →
      (cleanLoop true fuel p out 1).head? = some '/' := by
  induction fuel with
  | zero => intro p out h; exact h
  | succ fuel ih =>
    intro p out h
    cases p with
    | nil => exact h
    | cons c rest =>
      obtain ⟨o, rfl⟩ : ∃ o, out = '/' :: o := by
        cases out with
        | nil => simp at h
        | cons a o => simp at h; exact ⟨o, by rw [h]⟩
      rw [cleanLoop]
      split
      · exact ih _ _ h
      · split
        · exact ih _ _ h
        · split
          · split
            · rename_i hgt
              apply ih
              have hb := (backtrack_bounds ('/' :: o) 1 (('/' :: o).length - 1)
                (by simp only [List.length_cons] at hgt ⊢; omega)).1
              obtain ⟨k, hk⟩ : ∃ k, backtrack ('/' :: o) 1 (('/' :: o).length - 1) = k + 1 :=
                ⟨_, (Nat.sub_add_cancel hb).symm⟩
              rw [hk]
              rfl
            · simp only [Bool.not_true, Bool.false_eq_true, if_false]
              exact ih _ _ h
          · apply ih
            simp only [Bool.true_and, Bool.not_true, Bool.false_and, Bool.or_false]
            split <;> rfl

/-- Backtracking keeps `okBuf`. -/
theorem okBuf_backtrack (out : List Char) (dd : Nat) (h : okBuf out dd)
    (hgt : out.length > dd) :
    okBuf (out.take (backtrack out dd (out.length - 1))) dd := by
  obtain ⟨_, h2, h3⟩ := h
  obtain ⟨b1, b2, b3⟩ := backtrack_bounds out dd (out.length - 1) (by omega)
  generalize backtrack out dd (out.length - 1) = k at b1 b2 b3
  cases out with
  | nil => simp at hgt
  | cons a o =>
    simp only [List.length_cons, Nat.add_sub_cancel] at b2
    cases k with
    | zero => exact ⟨by simpa using b1, by simp, by simp⟩
    | succ k =>
      refine ⟨by simp; omega, by simpa using h2, ?_⟩
      intro ha
      have ha' : a = '.' := by simpa using ha
      obtain ⟨h4, h5⟩ := h3 (by simp [ha'])
      refine ⟨h4, ?_⟩
      cases k with
      | zero =>
        exfalso
        rcases b3 with b3 | b3
        · exact h4 b3.symm
        · exact h5 b3
      | succ k =>
        cases o with
        | nil => simp at b2
        | cons b o' => simpa using h5

/-- Appending a `..` element keeps `okBuf`. -/
theorem okBuf_dotdot (out : List Char) (dd : Nat) (h : okBuf out dd) :
    okBuf ((if out.length > 0 then out ++ ['/'] else out) ++ ['.', '.'])
      ((if out.length > 0 then out ++ ['/'] else out) ++ ['.', '.']).length := by
  obtain ⟨_, h2, h3⟩ := h
  cases out with
  | nil => exact ⟨Nat.le_refl _, by simp, by intro _; simp⟩
  | cons a o =>
    refine ⟨Nat.le_refl _, by simpa using h2, ?_⟩
    intro ha
    have ha' : a = '.' := by simpa using ha
    obtain ⟨_, h5⟩ := h3 (by simp [ha'])
    constructor
    · simp
    · cases o with
      | nil => simp at h5
      | cons b o' => simpa using h5

/-- Appending a real element keeps `okBuf`. -/
theorem okBuf_elem (out : List Char) (dd : Nat) (c : Char) (rest : List Char)
    (h : okBuf out dd) (hc : IsPathSeparator c = false)
    (hdot : ¬ (c = '.' ∧ IsPathSeparator (rest.headD '/') = true)) :
    okBuf (withSep false out ++ c :: rest.takeWhile (fun x => !IsPathSeparator x)) dd := by
  obtain ⟨h1, h2, h3⟩ := h
  cases out with
  | nil =>
    simp only [List.length_nil, Nat.le_zero] at h1
    subst h1
    refine ⟨Nat.zero_le _, ?_, ?_⟩
    · simp [withSep, IsPathSeparator] at hc ⊢
      exact hc
    · intro ha
      have ha' : c = '.' := by simpa [withSep] using ha
      refine ⟨by decide, ?_⟩
      have hr : ¬ IsPathSeparator (rest.headD '/') = true := fun hh => hdot ⟨ha', hh⟩
      cases rest with
      | nil => simp [IsPathSeparator] at hr
      | cons d r =>
        simp only [List.headD_cons, Bool.not_eq_true] at hr
        simp [withSep, hr]
        simpa [IsPathSeparator] using hr
  | cons a o =>
    refine ⟨?_, ?_, ?_⟩
    · simp [withSep] at h1 ⊢
      omega
    · simpa [withSep] using h2
    · intro ha
      have ha' : a = '.' := by simpa [withSep] using ha
      obtain ⟨h4, h5⟩ := h3 (by simp [ha'])
      refine ⟨h4, ?_⟩
      cases o with
      | nil => simp at h5
      | cons b o' => simpa [withSep] using h5

/-- The loop on an unrooted path keeps `okBuf`. -/
theorem cleanLoop_unrooted_ok (fuel : Nat) :
    ∀ (p out : List Char) (dd : Nat), okBuf out dd →
      ∃ dd', okBuf (cleanLoop false fuel p out dd) dd' := by
  induction fuel with
  | zero => intro p out dd h; exact ⟨dd, h⟩
  | succ fuel ih =>
    intro p out dd h
    cases p with
    | nil => exact ⟨dd, h⟩
    | cons c rest =>
      rw [cleanLoop]
      simp only [nil_or_sep]
      by_cases hc1 : IsPathSeparator c = true
      · rw [if_pos hc1]
        exact ih _ _ _ h
      · rw [if_neg hc1]
        by_cases hc2 : c = '.' ∧ IsPathSeparator (rest.headD '/') = true
        · rw [if_pos hc2]
          exact ih _ _ _ h
        · rw [if_neg hc2]
          split
          · split
            · rename_i hgt
              exact ih _ _ _ (okBuf_backtrack out dd h hgt)
            · simp only [Bool.not_false, if_true]
              exact ih _ _ _ (okBuf_dotdot out dd h)
          · exact ih _ _ _ (okBuf_elem out dd c rest h (by simpa using hc1) hc2)

/-- An `okBuf` buffer is neither `/` nor `.`. -/
theorem okBuf_ne (out : List Char) (dd : Nat) (h : okBuf out dd) :
    out ≠ ['/'] ∧ out ≠ ['.'] := by
  obtain ⟨_, h2, h3⟩ := h
  constructor
  · rintro rfl
    simp at h2
  · rintro rfl
    have := (h3 rfl).2
    simp at this

/-- A plain name is a plain element. -/
theorem plainElem_of_isPlainName (name : String) (h : isPlainName name) :
    plainElem name.data := by
  obtain ⟨h1, h2, h3, h4⟩ := h
  refine ⟨?_, h2, ?_, ?_⟩
  · intro hd
    exact h1 (String.ext hd)
  · intro hd
    exact h3 (String.ext hd)
  · intro hd
    exact h4 (String.ext hd)

/-- The buffer of `W/e` is the buffer of `W` with `e` appended. -/
theorem cleanBuf_append_plain (W e : List Char) (hW : W ≠ []) (he : plainElem e) :
    cleanBuf (W ++ '/' :: e) = withSep (IsPathSeparator (W.headD 'x')) (cleanBuf W) ++ e := by
  cases W with
  | nil => exact absurd rfl hW
  | cons c W' =>
    simp only [cleanBuf, List.cons_append, List.headD_cons, List.tail_cons]
    by_cases hc : IsPathSeparator c = true
    · simp only [hc, if_true]
      exact cleanLoop_append_plain true e he W'.length W' (Nat.le_refl _) _ _ _ _
        (by
          have := he.1
          cases e with
          | nil => exact absurd rfl this
          | cons a e' => simp only [List.length_cons, List.length_append]; omega)
        (by simp)
    · simp only [hc, Bool.false_eq_true, if_false]
      have := cleanLoop_append_plain false e he (c :: W').length (c :: W') (Nat.le_refl _)
        ((c :: (W' ++ '/' :: e)).length) (c :: W').length [] 0
        (by
          have := he.1
          cases e with
          | nil => exact absurd rfl this
          | cons a e' => simp only [List.length_cons, List.length_append]; omega)
        (Nat.le_refl _)
      simpa using this

/-- A real element alone is clean. -/
theorem cleanBuf_plain (e : List Char) (he : plainElem e) : cleanBuf e = e := by
  have hne := he.1
  cases e with
  | nil => exact absurd rfl hne
  | cons c r =>
    have hc : IsPathSeparator c = false := by
      have : c ≠ '/' := fun h => he.2.1 (h ▸ List.mem_cons_self _ _)
      simp [IsPathSeparator, this]
    simp only [cleanBuf, List.headD_cons, hc, Bool.false_eq_true, if_false, List.length_cons]
    rw [cleanLoop_plain false r.length (c :: r) [] 0 he]
    rfl

/-- Joining a path and one real element gives the entry of that name in the
cleaned path. -/
theorem Join_plain (W name : String) (h : isPlainName name) :
    Join [W, name] = childPath (Clean W) name := by
  have he := plainElem_of_isPlainName name h
  have hne : name ≠ "" := h.1
  have hdne : name.data ≠ [] := he.1
  by_cases hW : W = ""
  · subst hW
    have h1 : Join ["", name] = Clean name := by
      simp [Join, hne, String.intercalate, String.intercalate.go]
    have h2 : Clean name = name := by
      simp only [Clean, hne, if_false, cleanBuf_plain name.data he, List.length_eq_zero, hdne]
    rw [h1, h2]
    rfl
  · have hWd : W.data ≠ [] := fun hd => hW (String.ext hd)
    have h1 : Join [W, name] = Clean (W ++ "/" ++ name) := by
      simp [Join, hW, String.intercalate, String.intercalate.go]
    have hdata : (W ++ "/" ++ name).data = W.data ++ '/' :: name.data := by
      simp [String.data_append]
    have hne2 : W ++ "/" ++ name ≠ "" := by
      intro hh
      have := congrArg String.data hh
      rw [hdata] at this
      simp at this
    rw [h1]
    simp only [Clean, hne2, hW, if_false, hdata, cleanBuf_append_plain W.data name.data hWd he]
    have hlen : ¬ (withSep (IsPathSeparator (W.data.headD 'x')) (cleanBuf W.data)
        ++ name.data).length = 0 := by
      have hpos : 0 < name.data.length := List.length_pos.mpr hdne
      rw [List.length_append]
      omega
    rw [if_neg hlen]
    by_cases hr : IsPathSeparator (W.data.headD 'x') = true
    · -- the rooted case
      have hhead : (cleanBuf W.data).head? = some '/' := by
        simp only [cleanBuf, hr, if_true]
        exact cleanLoop_rooted_head _ _ _ rfl
      obtain ⟨B, hB⟩ : ∃ B, cleanBuf W.data = '/' :: B := by
        cases hcb : cleanBuf W.data with
        | nil => rw [hcb] at hhead; simp at hhead
        | cons a o =>
          rw [hcb] at hhead
          simp at hhead
          exact ⟨o, by rw [hhead]⟩
      rw [hr, hB]
      cases B with
      | nil =>
        have : childPath "/" name = "/" ++ name := rfl
        simp only [withSep, List.length_singleton, List.length_cons, List.length_nil]
        exact String.ext (by simp [childPath, String.data_append])
      | cons b B' =>
        have h1 : (String.mk ('/' :: b :: B')) ≠ "/" := by
          intro hh
          have := congrArg String.data hh
          simp at this
        have h2 : (String.mk ('/' :: b :: B')) ≠ "." := by
          intro hh
          have := congrArg String.data hh
          simp at this
        simp only [List.length_cons, Nat.add_eq_zero, one_ne_zero, and_false, if_false,
          childPath, h1, h2]
        exact String.ext (by simp [withSep, String.data_append])
    · -- the unrooted case
      have hr' : IsPathSeparator (W.data.headD 'x') = false := by simpa using hr
      obtain ⟨dd', hok⟩ : ∃ dd', okBuf (cleanBuf W.data) dd' := by
        simp only [cleanBuf, hr', Bool.false_eq_true, if_false]
        exact cleanLoop_unrooted_ok _ _ _ _ ⟨Nat.le_refl _, by simp, by simp⟩
      obtain ⟨hn1, hn2⟩ := okBuf_ne _ _ hok
      rw [hr']
      cases hcb : cleanBuf W.data with
      | nil =>
        simp only [List.length_nil, if_true, withSep, List.nil_append]
        exact String.ext (by simp [childPath])
      | cons a o =>
        rw [hcb] at hn1 hn2
        have h1 : (String.mk (a :: o)) ≠ "/" := by
          intro hh
          exact hn1 (congrArg String.data hh)
        have h2 : (String.mk (a :: o)) ≠ "." := by
          intro hh
          exact hn2 (congrArg String.data hh)
        simp only [List.length_cons, Nat.add_eq_zero, one_ne_zero, and_false, if_false,
          childPath, h1, h2]
        exact String.ext (by simp [withSep, String.data_append])

/-- A path always has at least one element. -/
theorem pathElems_ne_nil (l : List Char) : pathElems l ≠ [] := by
  cases l with
  | nil => simp [pathElems]
  | cons c cs =>
    rw [pathElems]
    split
    · simp
    · split <;> simp

/-- The first character of the first element leads the joined path. -/
theorem joinElems_cons_cons (c : Char) (e : List Char) (es : List (List Char)) :
    joinElems ((c :: e) :: es) = c :: joinElems (e :: es) := by
  cases es <;> rfl

/-- Joining the elements of a path gives the path back. -/
theorem joinElems_pathElems (l : List Char) : joinElems (pathElems l) = l := by
  induction l with
  | nil => rfl
  | cons c cs ih =>
    rw [pathElems]
    by_cases hc : IsPathSeparator c = true
    · rw [if_pos hc]
      have hcs : c = '/' := by simpa [IsPathSeparator] using hc
      cases hp : pathElems cs with
      | nil => exact absurd hp (pathElems_ne_nil cs)
      | cons e es =>
        rw [hp] at ih
        simp only [joinElems, List.nil_append]
        rw [ih, hcs]
    · rw [if_neg hc]
      cases hp : pathElems cs with
      | nil => exact absurd hp (pathElems_ne_nil cs)
      | cons e es =>
        rw [hp] at ih
        simp only []
        rw [joinElems_cons_cons, ih]

/-- No path element holds a separator. -/
theorem not_sep_mem_pathElems (l : List Char) : ∀ e ∈ pathElems l, '/' ∉ e := by
  induction l with
  | nil => simp [pathElems]
  | cons c cs ih =>
    rw [pathElems]
    by_cases hc : IsPathSeparator c = true
    · rw [if_pos hc]
      intro e he
      rcases List.mem_cons.mp he with rfl | he
      · simp
      · exact ih e he
    · rw [if_neg hc]
      have hcs : c ≠ '/' := by simpa [IsPathSeparator] using hc
      cases hp : pathElems cs with
      | nil => exact absurd hp (pathElems_ne_nil cs)
      | cons e0 es =>
        rw [hp] at ih
        simp only []
        intro e he
        rcases List.mem_cons.mp he with rfl | he
        · intro hm
          rcases List.mem_cons.mp hm with h | h
          · exact hcs h.symm
          · exact ih e0 (List.mem_cons_self _ _) h
        · exact ih e (List.mem_cons_of_mem _ he)

/-- The buffer of a rooted path starts with the separator. -/
theorem cleanBuf_rooted_head (W : List Char)
    (h : IsPathSeparator (W.headD 'x') = true) : (cleanBuf W).head? = some '/' := by
  simp only [cleanBuf, h, if_true]
  exact cleanLoop_rooted_head _ _ _ rfl

/-- After a real element the buffer always takes a separator. -/
theorem withSep_after_elem (r : Bool) (B e : List Char) (he : e ≠ [])
    (hB : r = true → B.head? = some '/') :
    withSep r (withSep r B ++ e) = (withSep r B ++ e) ++ ['/'] := by
  have hpos : 0 < e.length := List.length_pos.mpr he
  have hle : B.length ≤ (withSep r B).length := by
    unfold withSep
    split <;> simp
  cases r with
  | false =>
    have : (withSep false B ++ e).length ≠ 0 := by
      rw [List.length_append]; omega
    simp [withSep, this] at this ⊢
    intro h1 h2
    exact absurd h2 he
  | true =>
    have hBne : 0 < B.length := by
      have := hB rfl
      cases B with
      | nil => simp at this
      | cons a o => simp
    have hlen : (withSep true B ++ e).length ≠ 1 := by
      rw [List.length_append]; omega
    have hlen2 : ¬ (withSep true B).length + e.length = 1 := by omega
    conv_lhs => rw [withSep]
    simp [hlen2]

/-- The buffer of `W`, a separator and real elements joined is the buffer of `W`
with those elements appended as they are. -/
theorem cleanBuf_append_elems :
    ∀ (es : List (List Char)), es ≠ [] → (∀ e ∈ es, plainElem e) →
      ∀ (W : List Char), W ≠ [] →
      cleanBuf (W ++ '/' :: joinElems es)
        = withSep (IsPathSeparator (W.headD 'x')) (cleanBuf W) ++ joinElems es := by
  intro es
  induction es with
  | nil => intro h; exact absurd rfl h
  | cons e es ih =>
    intro _ hall W hW
    have he : plainElem e := hall e (List.mem_cons_self _ _)
    cases es with
    | nil => exact cleanBuf_append_plain W e hW he
    | cons e2 es2 =>
      have hall2 : ∀ x ∈ e2 :: es2, plainElem x := fun x hx => hall x (List.mem_cons_of_mem _ hx)
      have hW1 : W ++ '/' :: e ≠ [] := by simp
      have hhead : (W ++ '/' :: e).headD 'x' = W.headD 'x' := by
        cases W with
        | nil => exact absurd rfl hW
        | cons a W2 => rfl
      have h1 := ih (by simp) hall2 (W ++ '/' :: e) hW1
      rw [hhead, cleanBuf_append_plain W e hW he] at h1
      rw [withSep_after_elem _ _ e he.1 (fun hr => cleanBuf_rooted_head W hr)] at h1
      have hj : joinElems (e :: e2 :: es2) = e ++ '/' :: joinElems (e2 :: es2) := rfl
      rw [hj]
      have hassoc : W ++ '/' :: (e ++ '/' :: joinElems (e2 :: es2))
          = (W ++ '/' :: e) ++ '/' :: joinElems (e2 :: es2) := by simp
      rw [hassoc, h1]
      simp

/-- Real elements joined are clean. -/
theorem cleanBuf_elems (es : List (List Char)) (hne : es ≠ [])
    (hall : ∀ e ∈ es, plainElem e) : cleanBuf (joinElems es) = joinElems es := by
  cases es with
  | nil => exact absurd rfl hne
  | cons e es =>
    have he : plainElem e := hall e (List.mem_cons_self _ _)
    cases es with
    | nil => exact cleanBuf_plain e he
    | cons e2 es2 =>
      have hall2 : ∀ x ∈ e2 :: es2, plainElem x := fun x hx => hall x (List.mem_cons_of_mem _ hx)
      have hj : joinElems (e :: e2 :: es2) = e ++ '/' :: joinElems (e2 :: es2) := rfl
      rw [hj, cleanBuf_append_elems (e2 :: es2) (by simp) hall2 e he.1, cleanBuf_plain e he]
      have hs : IsPathSeparator (e.headD 'x') = false := by
        cases e with
        | nil => exact absurd rfl he.1
        | cons c r =>
          have : c ≠ '/' := fun h => he.2.1 (h ▸ List.mem_cons_self _ _)
          simp [IsPathSeparator, this]
      rw [hs]
      have hlen : e.length ≠ 0 := by
        have := List.length_pos.mpr he.1
        omega
      simp [withSep, hlen]

/-- The elements of a clean relative path are real elements. -/
theorem plainElems_of_isCleanRelative (name : String) (h : isCleanRelative name) :
    ∀ e ∈ pathElems name.data, plainElem e := by
  intro e he
  obtain ⟨h1, h2, h3⟩ := h e he
  exact ⟨h1, not_sep_mem_pathElems name.data e he, h2, h3⟩

/-- Joining a path and a clean relative path without `..` gives the cleaned path
followed by the relative path. -/
theorem Join_cleanRelative (W name : String) (h : isCleanRelative name) :
    Join [W, name] = childPath (Clean W) name := by
  have hall := plainElems_of_isCleanRelative name h
  have hes := joinElems_pathElems name.data
  have hbuf1 : cleanBuf name.data = name.data := by
    have := cleanBuf_elems (pathElems name.data) (pathElems_ne_nil _) hall
    rwa [hes] at this
  have hbuf2 : ∀ V : List Char, V ≠ [] → cleanBuf (V ++ '/' :: name.data)
      = withSep (IsPathSeparator (V.headD 'x')) (cleanBuf V) ++ name.data := by
    intro V hV
    have := cleanBuf_append_elems (pathElems name.data) (pathElems_ne_nil _) hall V hV
    rwa [hes] at this
  have hdne : name.data ≠ [] := by
    intro hd
    have := h [] (by rw [hd]; simp [pathElems])
    exact this.1 rfl
  have hne : name ≠ "" := by
    intro hn
    rw [hn] at hdne
    exact hdne rfl
  by_cases hW : W = ""
  · subst hW
    have h1 : Join ["", name] = Clean name := by
      simp [Join, hne, String.intercalate, String.intercalate.go]
    have h2 : Clean name = name := by
      simp only [Clean, hne, if_false, hbuf1, List.length_eq_zero, hdne]
    rw [h1, h2]
    rfl
  · have hWd : W.data ≠ [] := fun hd => hW (String.ext hd)
    have h1 : Join [W, name] = Clean (W ++ "/" ++ name) := by
      simp [Join, hW, String.intercalate, String.intercalate.go]
    have hdata : (W ++ "/" ++ name).data = W.data ++ '/' :: name.data := by
      simp [String.data_append]
    have hne2 : W ++ "/" ++ name ≠ "" := by
      intro hh
      have := congrArg String.data hh
      rw [hdata] at this
      simp at this
    rw [h1]
    simp only [Clean, hne2, hW, if_false, hdata, hbuf2 W.data hWd]
    have hlen : ¬ (withSep (IsPathSeparator (W.data.headD 'x')) (cleanBuf W.data)
        ++ name.data).length = 0 := by
      have hpos : 0 < name.data.length := List.length_pos.mpr hdne
      rw [List.length_append]
      omega
    rw [if_neg hlen]
    by_cases hr : IsPathSeparator (W.data.headD 'x') = true
    · -- the rooted case
      have hhead : (cleanBuf W.data).head? = some '/' := by
        simp only [cleanBuf, hr, if_true]
        exact cleanLoop_rooted_head _ _ _ rfl
      obtain ⟨B, hB⟩ : ∃ B, cleanBuf W.data = '/' :: B := by
        cases hcb : cleanBuf W.data with
        | nil => rw [hcb] at hhead; simp at hhead
        | cons a o =>
          rw [hcb] at hhead
          simp at hhead
          exact ⟨o, by rw [hhead]⟩
      rw [hr, hB]
      cases B with
      | nil =>
        have : childPath "/" name = "/" ++ name := rfl
        simp only [withSep, List.length_singleton, List.length_cons, List.length_nil]
        exact String.ext (by simp [childPath, String.data_append])
      | cons b B' =>
        have h1 : (String.mk ('/' :: b :: B')) ≠ "/" := by
          intro hh
          have := congrArg String.data hh
          simp at this
        have h2 : (String.mk ('/' :: b :: B')) ≠ "." := by
          intro hh
          have := congrArg String.data hh
          simp at this
        simp only [List.length_cons, Nat.add_eq_zero, one_ne_zero, and_false, if_false,
          childPath, h1, h2]
        exact String.ext (by simp [withSep, String.data_append])
    · -- the unrooted case
      have hr' : IsPathSeparator (W.data.headD 'x') = false := by simpa using hr
      obtain ⟨dd', hok⟩ : ∃ dd', okBuf (cleanBuf W.data) dd' := by
        simp only [cleanBuf, hr', Bool.false_eq_true, if_false]
        exact cleanLoop_unrooted_ok _ _ _ _ ⟨Nat.le_refl _, by simp, by simp⟩
      obtain ⟨hn1, hn2⟩ := okBuf_ne _ _ hok
      rw [hr']
      cases hcb : cleanBuf W.data with
      | nil =>
        simp only [List.length_nil, if_true, withSep, List.nil_append]
        exact String.ext (by simp [childPath])
      | cons a o =>
        rw [hcb] at hn1 hn2
        have h1 : (String.mk (a :: o)) ≠ "/" := by
          intro hh
          exact hn1 (congrArg String.data hh)
        have h2 : (String.mk (a :: o)) ≠ "." := by
          intro hh
          exact hn2 (congrArg String.data hh)
        simp only [List.length_cons, Nat.add_eq_zero, one_ne_zero, and_false, if_false,
          childPath, h1, h2]
        exact String.ext (by simp [withSep, String.data_append])

/-- Joining one more element at the end. -/
theorem joinElems_snoc (es : List (List Char)) (e : List Char) (h : es ≠ []) :
    joinElems (es ++ [e]) = joinElems es ++ '/' :: e := by
  induction es with
  | nil => exact absurd rfl h
  | cons a es ih =>
    cases es with
    | nil => rfl
    | cons b es2 =>
      have h1 : joinElems (a :: b :: es2) = a ++ '/' :: joinElems (b :: es2) := rfl
      have h2 : joinElems ((a :: b :: es2) ++ [e])
          = a ++ '/' :: joinElems ((b :: es2) ++ [e]) := rfl
      rw [h2, ih (by simp), h1]
      simp

/-- Real elements joined are not empty. -/
theorem joinElems_ne_nil (es : List (List Char)) (h : es ≠ [])
    (hall : ∀ e ∈ es, plainElem e) : joinElems es ≠ [] := by
  cases es with
  | nil => exact absurd rfl h
  | cons a es =>
    have ha := (hall a (List.mem_cons_self _ _)).1
    cases es with
    | nil => exact ha
    | cons b es2 =>
      have h1 : joinElems (a :: b :: es2) = a ++ '/' :: joinElems (b :: es2) := rfl
      rw [h1]
      simp

/-- Cutting joined real elements at a separator leaves joined real elements. -/
theorem take_joinElems_at_sep :
    ∀ (es : List (List Char)), (∀ e ∈ es, plainElem e) → ∀ m : Nat,
      (joinElems es).getD m '/' = '/' →
      ∃ es2 : List (List Char), (∀ e ∈ es2, plainElem e) ∧
        (joinElems es).take m = joinElems es2 ∧ (es ≠ [] → es2 ≠ []) := by
  intro es
  induction es with
  | nil =>
    intro _ m _
    exact ⟨[], by simp, by simp [joinElems], fun h => absurd rfl h⟩
  | cons a es ih =>
    intro hall m hm
    have ha := hall a (List.mem_cons_self _ _)
    have hall2 : ∀ x ∈ es, plainElem x := fun x hx => hall x (List.mem_cons_of_mem _ hx)
    cases es with
    | nil =>
      have hj : joinElems [a] = a := rfl
      rw [hj] at hm ⊢
      by_cases hlt : m < a.length
      · exfalso
        have : a.getD m '/' = a[m] := by simp [List.getD_eq_getElem?_getD, hlt]
        rw [this] at hm
        exact ha.2.1 (hm ▸ List.getElem_mem _)
      · refine ⟨[a], hall, ?_, fun _ => by simp⟩
        rw [List.take_of_length_le (by omega)]
        rfl
    | cons b es2 =>
      have hj : joinElems (a :: b :: es2) = a ++ '/' :: joinElems (b :: es2) := rfl
      rw [hj] at hm ⊢
      by_cases hlt : m < a.length
      · exfalso
        have : (a ++ '/' :: joinElems (b :: es2)).getD m '/' = a[m] := by
          simp [List.getD_eq_getElem?_getD, List.getElem?_append_left, hlt]
        rw [this] at hm
        exact ha.2.1 (hm ▸ List.getElem_mem _)
      · by_cases heq : m = a.length
        · refine ⟨[a], fun e he => by
            rw [List.mem_singleton] at he; exact he ▸ ha, ?_, fun _ => by simp⟩
          rw [heq, List.take_left']
          · rfl
          · rfl
        · obtain ⟨m2, rfl⟩ : ∃ m2, m = a.length + 1 + m2 := ⟨m - a.length - 1, by omega⟩
          have hget : (a ++ '/' :: joinElems (b :: es2)).getD (a.length + 1 + m2) '/'
              = (joinElems (b :: es2)).getD m2 '/' := by
            simp only [List.getD_eq_getElem?_getD]
            rw [List.getElem?_append_right (by omega)]
            have : a.length + 1 + m2 - a.length = m2 + 1 := by omega
            rw [this, List.getElem?_cons_succ]
          rw [hget] at hm
          obtain ⟨es3, h3, ht, hne⟩ := ih hall2 m2 hm
          have hes3 : es3 ≠ [] := hne (by simp)
          refine ⟨a :: es3, ?_, ?_, fun _ => by simp⟩
          · intro e he
            rcases List.mem_cons.mp he with rfl | he
            · exact ha
            · exact h3 e he
          · have htake : (a ++ '/' :: joinElems (b :: es2)).take (a.length + 1 + m2)
                = a ++ '/' :: (joinElems (b :: es2)).take m2 := by
              rw [List.take_append_eq_append_take]
              have h1 : a.take (a.length + 1 + m2) = a := List.take_of_length_le (by omega)
              have h2 : a.length + 1 + m2 - a.length = m2 + 1 := by omega
              rw [h1, h2]
              rfl
            rw [htake, ht]
            cases es3 with
            | nil => exact absurd rfl hes3
            | cons x xs => rfl

/-- The element the default case copies is a real element. -/
theorem plainElem_copied (c : Char) (rest : List Char) (hc : IsPathSeparator c = false)
    (h2 : ¬ (c = '.' ∧ IsPathSeparator (rest.headD '/') = true))
    (h3 : ¬ (c = '.' ∧ rest.headD '/' = '.' ∧ IsPathSeparator (rest.tail.headD '/') = true)) :
    plainElem (c :: rest.takeWhile (fun x => !IsPathSeparator x)) := by
  have hcs : c ≠ '/' := by simpa [IsPathSeparator] using hc
  refine ⟨by simp, ?_, ?_, ?_⟩
  · intro hm
    rcases List.mem_cons.mp hm with h | h
    · exact hcs h.symm
    · have := List.mem_takeWhile_imp h
      simp [IsPathSeparator] at this
  · intro h
    simp only [List.cons.injEq] at h
    obtain ⟨hc1, ht⟩ := h
    apply h2
    refine ⟨hc1, ?_⟩
    cases rest with
    | nil => rfl
    | cons d r =>
      simp only [List.takeWhile_cons] at ht
      split at ht
      · simp at ht
      · rename_i hd
        simpa using hd
  · intro h
    simp only [List.cons.injEq] at h
    obtain ⟨hc1, ht⟩ := h
    apply h3
    cases rest with
    | nil => simp at ht
    | cons d r =>
      simp only [List.takeWhile_cons] at ht
      split at ht
      · simp only [List.cons.injEq] at ht
        obtain ⟨hd, htr⟩ := ht
        refine ⟨hc1, by simpa using hd, ?_⟩
        simp only [List.tail_cons]
        cases r with
        | nil => rfl
        | cons x r2 =>
          simp only [List.takeWhile_cons] at htr
          split at htr
          · simp at htr
          · rename_i hx
            simpa using hx
      · simp at ht

/-- Backtracking keeps `goodRooted`. -/
theorem goodRooted_backtrack (out : List Char) (h : goodRooted out) (hgt : out.length > 1) :
    goodRooted (out.take (backtrack out 1 (out.length - 1))) := by
  obtain ⟨es, hall, rfl⟩ := h
  obtain ⟨b1, _, b3⟩ := backtrack_bounds ('/' :: joinElems es) 1
    (('/' :: joinElems es).length - 1) (by simp only [List.length_cons] at hgt ⊢; omega)
  generalize backtrack ('/' :: joinElems es) 1 (('/' :: joinElems es).length - 1) = k at b1 b3
  obtain ⟨k2, rfl⟩ : ∃ k2, k = k2 + 1 := ⟨k - 1, by omega⟩
  simp only [List.take_succ_cons]
  rcases b3 with b3 | b3
  · have : k2 = 0 := by omega
    subst this
    exact ⟨[], by simp, by simp [joinElems]⟩
  · have hget : (joinElems es).getD k2 '/' = '/' := by
      simpa [List.getD_eq_getElem?_getD] using b3
    obtain ⟨es2, h2, ht, _⟩ := take_joinElems_at_sep es hall k2 hget
    exact ⟨es2, h2, by rw [ht]⟩

/-- Appending a real element keeps `goodRooted`. -/
theorem goodRooted_elem (out e : List Char) (h : goodRooted out) (he : plainElem e) :
    goodRooted (withSep true out ++ e) := by
  obtain ⟨es, hall, rfl⟩ := h
  cases es with
  | nil =>
    refine ⟨[e], fun x hx => by rw [List.mem_singleton] at hx; exact hx ▸ he, ?_⟩
    simp [withSep, joinElems]
  | cons a es2 =>
    have hne := joinElems_ne_nil (a :: es2) (by simp) hall
    have hlen : ¬ (joinElems (a :: es2)).length = 0 := by
      intro h0
      exact hne (List.length_eq_zero.mp h0)
    refine ⟨(a :: es2) ++ [e], ?_, ?_⟩
    · intro x hx
      rcases List.mem_append.mp hx with hx | hx
      · exact hall x hx
      · rw [List.mem_singleton] at hx
        exact hx ▸ he
    · rw [joinElems_snoc (a :: es2) e (by simp)]
      simp [withSep, hlen]

/-- The loop on a rooted path keeps `goodRooted`. -/
theorem cleanLoop_rooted_good (fuel : Nat) :
    ∀ (p out : List Char), goodRooted out → goodRooted (cleanLoop true fuel p out 1) := by
  induction fuel with
  | zero => intro p out h; exact h
  | succ fuel ih =>
    intro p out h
    cases p with
    | nil => exact h
    | cons c rest =>
      rw [cleanLoop]
      simp only [nil_or_sep]
      by_cases hc1 : IsPathSeparator c = true
      · rw [if_pos hc1]
        exact ih _ _ h
      · rw [if_neg hc1]
        by_cases hc2 : c = '.' ∧ IsPathSeparator (rest.headD '/') = true
        · rw [if_pos hc2]
          exact ih _ _ h
        · rw [if_neg hc2]
          by_cases hc3 : c = '.' ∧ rest.headD '/' = '.' ∧
              IsPathSeparator (rest.tail.headD '/') = true
          · rw [if_pos hc3]
            split
            · rename_i hgt
              exact ih _ _ (goodRooted_backtrack out h hgt)
            · simp only [Bool.not_true, Bool.false_eq_true, if_false]
              exact ih _ _ h
          · rw [if_neg hc3]
            exact ih _ _ (goodRooted_elem out _ h
              (plainElem_copied c rest (by simpa using hc1) hc2 hc3))

/-- The elements of two paths put together with a separator. -/
theorem pathElems_append_sep (W n : List Char) :
    pathElems (W ++ '/' :: n) = pathElems W ++ pathElems n := by
  induction W with
  | nil => simp [pathElems, IsPathSeparator]
  | cons c W2 ih =>
    simp only [List.cons_append]
    rw [pathElems, pathElems, ih]
    by_cases hc : IsPathSeparator c = true
    · rw [if_pos hc, if_pos hc]
      rfl
    · rw [if_neg hc, if_neg hc]
      cases hp : pathElems W2 with
      | nil => exact absurd hp (pathElems_ne_nil W2)
      | cons e es => rfl

/-- A path without separator is its own single element. -/
theorem pathElems_of_not_mem (e : List Char) (h : '/' ∉ e) : pathElems e = [e] := by
  induction e with
  | nil => rfl
  | cons c r ih =>
    have hc : ¬ IsPathSeparator c = true := by
      have : c ≠ '/' := fun hh => h (hh ▸ List.mem_cons_self _ _)
      simp [IsPathSeparator, this]
    rw [pathElems, if_neg hc, ih (fun hh => h (List.mem_cons_of_mem _ hh))]

/-- The elements of joined real elements are those elements. -/
theorem pathElems_joinElems (es : List (List Char)) (hne : es ≠ [])
    (hall : ∀ e ∈ es, plainElem e) : pathElems (joinElems es) = es := by
  induction es with
  | nil => exact absurd rfl hne
  | cons a es ih =>
    have ha := hall a (List.mem_cons_self _ _)
    cases es with
    | nil => exact pathElems_of_not_mem a ha.2.1
    | cons b es2 =>
      have hj : joinElems (a :: b :: es2) = a ++ '/' :: joinElems (b :: es2) := rfl
      rw [hj, pathElems_append_sep, pathElems_of_not_mem a ha.2.1,
        ih (by simp) (fun x hx => hall x (List.mem_cons_of_mem _ hx))]
      rfl

/-- The other direction, for an absolute working directory: if the joined path
is the working directory, a separator and the name, unchanged, then the name
is a clean relative path without `..`. -/
theorem isCleanRelative_of_Join (W name : String) (hW : W.data.head? = some '/')
    (h : Join [W, name] = W ++ "/" ++ name) : isCleanRelative name := by
  obtain ⟨V, hV⟩ : ∃ V, W.data = '/' :: V := by
    cases hd : W.data with
    | nil => rw [hd] at hW; simp at hW
    | cons a o =>
      rw [hd] at hW
      simp at hW
      exact ⟨o, by rw [hW]⟩
  have hWne : W ≠ "" := by
    intro hh
    rw [hh] at hV
    simp at hV
  have h1 : Join [W, name] = Clean (W ++ "/" ++ name) := by
    simp [Join, hWne, String.intercalate, String.intercalate.go]
  have hdata : (W ++ "/" ++ name).data = '/' :: (V ++ '/' :: name.data) := by
    simp [String.data_append, hV]
  have hne2 : W ++ "/" ++ name ≠ "" := by
    intro hh
    have := congrArg String.data hh
    rw [hdata] at this
    simp at this
  have hgood : goodRooted (cleanBuf (W ++ "/" ++ name).data) := by
    rw [hdata]
    simp only [cleanBuf, List.headD_cons, IsPathSeparator, beq_self_eq_true, if_true,
      List.tail_cons]
    exact cleanLoop_rooted_good _ _ _ ⟨[], by simp, by simp [joinElems]⟩
  obtain ⟨es, hall, hes⟩ := hgood
  rw [h1] at h
  simp only [Clean, hne2, if_false, hes, List.length_cons, Nat.add_eq_zero, one_ne_zero,
    and_false] at h
  have hd := congrArg String.data h
  rw [hdata] at hd
  simp only [List.cons.injEq, true_and] at hd
  have hp := congrArg pathElems hd
  rw [pathElems_append_sep] at hp
  have hes0 : es ≠ [] := by
    intro h0
    rw [h0] at hp
    have hl := congrArg List.length hp
    have l1 : 0 < (pathElems V).length := List.length_pos.mpr (pathElems_ne_nil V)
    have l2 : 0 < (pathElems name.data).length := List.length_pos.mpr (pathElems_ne_nil _)
    simp [joinElems, pathElems] at hl
    omega
  rw [pathElems_joinElems es hes0 hall] at hp
  intro e he
  have hmem : e ∈ es := by
    rw [hp]
    exact List.mem_append_right _ he
  have := hall e hmem
  exact ⟨this.1, this.2.2.1, this.2.2.2⟩

/-- The fuel never cuts the loop short: any two fuels that are at least the
length of the unread path give the same buffer. -/
theorem cleanLoop_fuel (rooted : Bool) :
    ∀ (n : Nat) (p : List Char), p.length ≤ n →
      ∀ (f1 f2 : Nat) (out : List Char) (dd : Nat), p.length ≤ f1 → p.length ≤ f2 →
      cleanLoop rooted f1 p out dd = cleanLoop rooted f2 p out dd := by
  intro n
  induction n with
  | zero =>
    intro p hp f1 f2 out dd _ _
    have : p = [] := List.length_eq_zero.mp (Nat.le_zero.mp hp)
    subst this
    rw [cleanLoop_nil, cleanLoop_nil]
  | succ n ih =>
    intro p hp f1 f2 out dd h1 h2
    cases p with
    | nil => rw [cleanLoop_nil, cleanLoop_nil]
    | cons c rest =>
      simp only [List.length_cons] at hp h1 h2
      obtain ⟨g1, rfl⟩ : ∃ g, f1 = g + 1 := ⟨f1 - 1, by omega⟩
      obtain ⟨g2, rfl⟩ : ∃ g, f2 = g + 1 := ⟨f2 - 1, by omega⟩
      have hr : rest.length ≤ n := by omega
      have htl : rest.tail.length ≤ rest.length := by simp
      have hdl := length_dropWhile_le (fun x => !IsPathSeparator x) rest
      rw [cleanLoop, cleanLoop]
      split
      · exact ih rest hr g1 g2 _ _ (by omega) (by omega)
      · split
        · exact ih rest hr g1 g2 _ _ (by omega) (by omega)
        · split
          · split
            · exact ih rest.tail (by omega) g1 g2 _ _ (by omega) (by omega)
            · split
              · exact ih rest.tail (by omega) g1 g2 _ _ (by omega) (by omega)
              · exact ih rest.tail (by omega) g1 g2 _ _ (by omega) (by omega)
          · exact ih _ (by omega) g1 g2 _ _ (by omega) (by omega)

/-- Values of `Clean` on sample paths, one group per rule: clean already,
empty, trailing slash, doubled slash, `.` elements, `..` elements, mixtures. -/
theorem Clean_samples :
    [Clean "abc", Clean "abc/def", Clean "a/b/c", Clean ".", Clean "..", Clean "../..",
      Clean "../../abc", Clean "/abc", Clean "/", Clean "",
      Clean "abc/", Clean "abc/def/", Clean "a/b/c/", Clean "./", Clean "../", Clean "../../",
      Clean "/abc/", Clean "abc//def//ghi", Clean "abc//",
      Clean "abc/./def", Clean "/./abc/def", Clean "abc/.",
      Clean "abc/def/ghi/../jkl", Clean "abc/def/../ghi/../jkl", Clean "abc/def/..",
      Clean "abc/def/../..", Clean "/abc/def/../..", Clean "abc/def/../../..",
      Clean "/abc/def/../../..", Clean "abc/def/../../../ghi/jkl/../../../mno",
      Clean "/../abc",
      Clean "abc/./../def", Clean "abc//./../def", Clean "abc/../../././../def"]
    = ["abc", "abc/def", "a/b/c", ".", "..", "../..",
      "../../abc", "/abc", "/", ".",
      "abc", "abc/def", "a/b/c", ".", "..", "../..",
      "/abc", "abc/def/ghi", "abc",
      "abc/def", "/abc/def", "abc",
      "abc/def/jkl", "abc/jkl", "abc",
      ".", "/", "..",
      "/", "../../mno",
      "/abc",
      "def", "def", "../../def"] := by
  decide

/-- Values of `Join` on sample element lists. -/
theorem Join_samples :
    [Join ["a", "b"], Join ["a", ""], Join ["", "b"], Join ["/", "a"], Join ["/", ""],
      Join ["a/", "b"], Join ["a/", ""], Join ["", ""], Join [".", "generated"],
      Join ["/srv/work", "temp_spec.md"]]
    = ["a/b", "a", "b", "/a", "/", "a/b", "a", "", "generated", "/srv/work/temp_spec.md"] := by
  decide

/-- Values of `Join` for project names that are not clean relative paths: a
separator at the end or at the start, a doubled separator, a `.` or `..`
element.  None of them is the working directory followed by `/` and the name. -/
theorem Join_other_names :
    [Join ["/srv/work", "demo/"], Join ["/srv/work", "/demo"], Join ["/srv/work", "a//b"],
      Join ["/srv/work", "./demo"], Join ["/srv/work", "."], Join ["/srv/work", ".."],
      Join ["/srv/work", "a/../b"], Join ["", "/demo"]]
    = ["/srv/work/demo", "/srv/work/demo", "/srv/work/a/b",
      "/srv/work/demo", "/srv/work", "/srv",
      "/srv/work/b", "/demo"] := by
  decide

/-- Values of `parentDirs`, and a successful `MkdirAll` below a working
directory that does not exist yet: the directory and all its parents exist
afterwards, an unrelated directory does not. -/
theorem MkdirAll_samples :
    parentDirs "/srv/work/newroot/sub/demo"
      = ["/srv/work/newroot/sub", "/srv/work/newroot", "/srv/work", "/srv", "/"] ∧
    parentDirs "docs/api" = ["docs"] ∧
    parentDirs "demo" = [] ∧
    [(MkdirAll envInitDemo emptyWorld "/srv/work/newroot/sub/demo" 0o755).2.dirs
        "/srv/work/newroot/sub/demo",
      (MkdirAll envInitDemo emptyWorld "/srv/work/newroot/sub/demo" 0o755).2.dirs
        "/srv/work/newroot/sub",
      (MkdirAll envInitDemo emptyWorld "/srv/work/newroot/sub/demo" 0o755).2.dirs
        "/srv/work/newroot",
      (MkdirAll envInitDemo emptyWorld "/srv/work/newroot/sub/demo" 0o755).2.dirs
        "/srv/other"]
      = [true, true, true, false] := by
  refine ⟨by decide, by decide, by decide, by decide⟩

/-! ## Helper lemmas on `specifyArguments` -/

theorem specifyArguments_init (W : String) (args : String → String) :
    specifyArguments "init_project" W args = ["init", args "project_name", "--ai-assistant",
      if args "ai_assistant" = "" then "claude" else args "ai_assistant"] := rfl

/-- The argument list for `specify`. -/
theorem specifyArguments_specify (W : String) (args : String → String) :
    specifyArguments "specify" W args = ["specify", args "feature_description"] := rfl

/-- The argument list for `plan`. -/
theorem specifyArguments_plan (W : String) (args : String → String) :
    specifyArguments "plan" W args = ["plan", args "spec_file"] := rfl

/-- The argument list for `implement`. -/
theorem specifyArguments_implement (W : String) (args : String → String) :
    specifyArguments "implement" W args = ["implement", args "spec_file", "--output",
      if args "output_dir" = "" then Join [W, "generated"] else args "output_dir"] := rfl

/-- The argument list for `analyze`. -/
theorem specifyArguments_analyze (W : String) (args : String → String) :
    specifyArguments "analyze" W args = ["analyze", args "project_path"] := rfl

/-- The argument list for `tasks`. -/
theorem specifyArguments_tasks (W : String) (args : String → String) :
    specifyArguments "tasks" W args = ["tasks", args "spec_file"] := rfl

/-! ## The claims -/

/-- C1: for each registered tool and its handler, if the request's arguments
decode to a mapping in which the tool's mandatory field is absent or the empty
string (both leave the Go field at `""`), the handler returns the text
`Error: <field> is required`, with a nil error, and makes no call to the
outside at all: no program is run, no directory is created, no file is
written, and the world is left as it was. -/
theorem missing_field_reported_nothing_run (env : Env) (s : SpecKitServer)
    (req : CallToolRequest) (w : World) :
    ∀ th ∈ addTools, ∀ field ∈ th.1.required, ∀ args : String → String,
      env.Unmarshal req.Params.Arguments th.1.properties = .ok args →
      args field = "" →
      (th.2 env s req w).result = textResult ("Error: " ++ field ++ " is required") ∧
      (th.2 env s req w).err = none ∧
      (th.2 env s req w).trace = [] ∧
      (th.2 env s req w).world = w := by
  intro th hth field hfield args hdec hempty
  simp only [addTools, List.mem_cons, List.mem_singleton, List.mem_nil_iff, or_false] at hth
  rcases hth with rfl | rfl | rfl | rfl | rfl | rfl
  · simp only [initTool, List.mem_singleton] at hfield hdec
    subst hfield
    simp [handleInitProject, hdec, hempty]
  · simp only [specifyTool, List.mem_singleton] at hfield hdec
    subst hfield
    simp [handleSpecify, hdec, hempty]
  · simp only [planTool, List.mem_singleton] at hfield hdec
    subst hfield
    simp [handlePlan, hdec, hempty]
  · simp only [implementTool, List.mem_singleton] at hfield hdec
    subst hfield
    simp [handleImplement, hdec, hempty]
  · simp only [analyzeTool, List.mem_singleton] at hfield hdec
    subst hfield
    simp [handleAnalyze, hdec, hempty]
  · simp only [tasksTool, List.mem_singleton] at hfield hdec
    subst hfield
    simp [handleTasks, hdec, hempty]

/-- Witness of C1: `init_project` called with only `ai_assistant` set. -/
theorem missing_field_reported_nothing_run_witness :
    (handleInitProject envMissingName defaultServer
        (requestOf "init_project" "\x7b\"ai_assistant\":\"gemini\"\x7d") emptyWorld).result
      = textResult ("Error: " ++ "project_name" ++ " is required") ∧
    (handleInitProject envMissingName defaultServer
        (requestOf "init_project" "\x7b\"ai_assistant\":\"gemini\"\x7d") emptyWorld).err
      = none ∧
    (handleInitProject envMissingName defaultServer
        (requestOf "init_project" "\x7b\"ai_assistant\":\"gemini\"\x7d") emptyWorld).trace
      = [] ∧
    (handleInitProject envMissingName defaultServer
        (requestOf "init_project" "\x7b\"ai_assistant\":\"gemini\"\x7d") emptyWorld).world
      = emptyWorld :=
  missing_field_reported_nothing_run envMissingName defaultServer
    (requestOf "init_project" "\x7b\"ai_assistant\":\"gemini\"\x7d") emptyWorld
    (initTool, handleInitProject) (List.mem_cons_self _ _)
    "project_name" (List.mem_cons_self _ _)
    (fieldsOf [("ai_assistant", "gemini")]) rfl (by decide)

/-- C2: for each registered tool and its handler, and every validated request
(the arguments decode, the mandatory field is not empty and, for
`init_project`, the directory creation succeeded): if the external invocation
fails, whatever the error (non-zero exit or failure to start), with captured
combined output `O`, the handler returns a normal result: one text block whose
text starts with `Error` and contains `O`, and a nil error; and it attempts no
file write (so `specify` does not write `temp_spec.md`). -/
theorem failed_run_reported (env : Env) (s : SpecKitServer) (req : CallToolRequest)
    (w : World) :
    ∀ th ∈ addTools, ∀ (args : String → String) (w1 w2 : World) (O e : String),
      env.Unmarshal req.Params.Arguments th.1.properties = .ok args →
      (∀ field ∈ th.1.required, args field ≠ "") →
      (if th.1.Name = "init_project"
        then MkdirAll env w (Join [s.workingDir, args "project_name"]) 0o755 = (none, w1)
        else w1 = w) →
      env.run w1 "specify" (specifyArguments th.1.Name s.workingDir args) s.workingDir
        = (O, some e, w2) →
      (∃ t : String, (th.2 env s req w).result.Content = [Content.TextContent t] ∧
        startsWith t "Error" ∧ containsText t O) ∧
      (th.2 env s req w).err = none ∧
      (∀ ev ∈ (th.2 env s req w).trace, ev.isWriteFile = false) := by
  intro th hth args w1 w2 O e hdec hne hw1 hrun
  simp only [addTools, List.mem_cons, List.mem_singleton, List.mem_nil_iff, or_false] at hth
  rcases hth with rfl | rfl | rfl | rfl | rfl | rfl
  · simp only [initTool, List.mem_singleton, forall_eq, if_true,
      specifyArguments_init] at hne hdec hw1 hrun
    simp only [handleInitProject, hdec, hne, if_false, hw1, hrun, textResult]
    exact ⟨⟨_, rfl, startsWith_append_of_left _ _ _ (by decide),
      containsText_append_right _ _⟩, trivial, by simp [Event.isWriteFile]⟩
  · have hw : w1 = w := by simpa [specifyTool] using hw1
    subst hw
    simp only [specifyTool, List.mem_singleton, forall_eq,
      specifyArguments_specify] at hne hdec hrun
    simp only [handleSpecify, hdec, hne, if_false, hrun, textResult]
    exact ⟨⟨_, rfl, startsWith_append_of_left _ _ _ (by decide),
      containsText_append_right _ _⟩, trivial, by simp [Event.isWriteFile]⟩
  · have hw : w1 = w := by simpa [planTool] using hw1
    subst hw
    simp only [planTool, List.mem_singleton, forall_eq, specifyArguments_plan] at hne hdec hrun
    simp only [handlePlan, hdec, hne, if_false, hrun, textResult]
    exact ⟨⟨_, rfl, startsWith_append_of_left _ _ _ (by decide),
      containsText_append_right _ _⟩, trivial, by simp [Event.isWriteFile]⟩
  · have hw : w1 = w := by simpa [implementTool] using hw1
    subst hw
    simp only [implementTool, List.mem_singleton, forall_eq,
      specifyArguments_implement] at hne hdec hrun
    simp only [handleImplement, hdec, hne, if_false, hrun, textResult]
    exact ⟨⟨_, rfl, startsWith_append_of_left _ _ _ (by decide),
      containsText_append_right _ _⟩, trivial, by simp [Event.isWriteFile]⟩
  · have hw : w1 = w := by simpa [analyzeTool] using hw1
    subst hw
    simp only [analyzeTool, List.mem_singleton, forall_eq,
      specifyArguments_analyze] at hne hdec hrun
    simp only [handleAnalyze, hdec, hne, if_false, hrun, textResult]
    exact ⟨⟨_, rfl, startsWith_append_of_left _ _ _ (by decide),
      containsText_append_right _ _⟩, trivial, by simp [Event.isWriteFile]⟩
  · have hw : w1 = w := by simpa [tasksTool] using hw1
    subst hw
    simp only [tasksTool, List.mem_singleton, forall_eq, specifyArguments_tasks] at hne hdec hrun
    simp only [handleTasks, hdec, hne, if_false, hrun, textResult]
    exact ⟨⟨_, rfl, startsWith_append_of_left _ _ _ (by decide),
      containsText_append_right _ _⟩, trivial, by simp [Event.isWriteFile]⟩

/-- Witness of C2: `plan` when the external program exits with status 1. -/
theorem failed_run_reported_witness :
    envRunFails.run emptyWorld "specify"
        (specifyArguments "plan" "." (fieldsOf [("spec_file", "spec.md")])) "."
      = ("specify: spec.md: no such file\n", some "exit status 1", emptyWorld) ∧
    (∃ t : String,
      (handlePlan envRunFails defaultServer
          (requestOf "plan" "\x7b\"spec_file\":\"spec.md\"\x7d") emptyWorld).result.Content
        = [Content.TextContent t] ∧
      startsWith t "Error" ∧ containsText t "specify: spec.md: no such file\n") ∧
    (handlePlan envRunFails defaultServer
        (requestOf "plan" "\x7b\"spec_file\":\"spec.md\"\x7d") emptyWorld).err = none ∧
    (∀ ev ∈ (handlePlan envRunFails defaultServer
        (requestOf "plan" "\x7b\"spec_file\":\"spec.md\"\x7d") emptyWorld).trace,
      ev.isWriteFile = false) :=
  ⟨rfl,
    failed_run_reported envRunFails defaultServer
      (requestOf "plan" "\x7b\"spec_file\":\"spec.md\"\x7d") emptyWorld
      (planTool, handlePlan) (by simp [addTools])
      (fieldsOf [("spec_file", "spec.md")]) emptyWorld emptyWorld
      "specify: spec.md: no such file\n" "exit status 1" rfl
      (by intro field hf; simp only [planTool, List.mem_singleton] at hf; subst hf; decide)
      (by simp [planTool]) rfl⟩

/-- C3: `handleSpecify`, for decoded arguments with a non-empty
`feature_description`: if the external invocation succeeds with captured
output `T` and the write of the spec file succeeds, then afterwards the file at
`Join [workingDir, "temp_spec.md"]` has content exactly `T` (whatever it held
before), every other file and every directory is as the external program left
it, the write of that file is the only write the handler made, and the
response is one text block that contains both `T` and the file's path. -/
theorem specify_saves_output (env : Env) (s : SpecKitServer) (req : CallToolRequest)
    (w w1 : World) (args : String → String) (T : String)
    (hdec : env.Unmarshal req.Params.Arguments ["feature_description"] = .ok args)
    (hne : args "feature_description" ≠ "")
    (hrun : env.run w "specify" ["specify", args "feature_description"] s.workingDir
      = (T, none, w1))
    (hwrite : env.writeError w1 (Join [s.workingDir, "temp_spec.md"]) T 0o644 = none) :
    (handleSpecify env s req w).world.files (Join [s.workingDir, "temp_spec.md"]) = some T ∧
    (∀ p, p ≠ Join [s.workingDir, "temp_spec.md"] →
      (handleSpecify env s req w).world.files p = w1.files p) ∧
    (handleSpecify env s req w).world.dirs = w1.dirs ∧
    (handleSpecify env s req w).trace.filter Event.isWriteFile
      = [Event.WriteFile (Join [s.workingDir, "temp_spec.md"]) T 0o644 none] ∧
    (∃ t : String, (handleSpecify env s req w).result.Content = [Content.TextContent t] ∧
      containsText t T ∧ containsText t (Join [s.workingDir, "temp_spec.md"])) ∧
    (handleSpecify env s req w).err = none := by
  simp only [handleSpecify, hdec, hne, if_false, hrun, WriteFile, hwrite, textResult]
  refine ⟨by simp, ?_, trivial, by simp [Event.isWriteFile], ⟨_, rfl, ?_, ?_⟩, trivial⟩
  · intro p hp
    simp [hp]
  · exact containsText_append_of_left _ _ _
      (containsText_append_of_left _ _ _ (containsText_append_right _ _))
  · exact containsText_append_right _ _

/-- Witness of C3: the spec file already exists with an older text and is
overwritten. -/
theorem specify_saves_output_witness :
    worldWithOldSpec.files "/srv/work/temp_spec.md" = some "old text" ∧
    Join ["/srv/work", "temp_spec.md"] = "/srv/work/temp_spec.md" ∧
    (handleSpecify envSpecifyOk workServer
        (requestOf "specify" "\x7b\"feature_description\":\"login page\"\x7d")
        worldWithOldSpec).world.files (Join ["/srv/work", "temp_spec.md"])
      = some "# Login page\n" :=
  ⟨rfl, by decide,
    (specify_saves_output envSpecifyOk workServer
      (requestOf "specify" "\x7b\"feature_description\":\"login page\"\x7d")
      worldWithOldSpec worldWithOldSpec (fieldsOf [("feature_description", "login page")])
      "# Login page\n" rfl (by decide) rfl rfl).1⟩

/-- C4 as stated fails: the program printed `# Login page`, the write of the
spec file failed, and the text returned is the write error alone; the
specification text is not in it. -/
theorem specify_write_failure_drops_spec_text :
    envSpecifyWriteFails.run emptyWorld "specify" ["specify", "login page"] "/srv/work"
      = ("# Login page\n", none, emptyWorld) ∧
    envSpecifyWriteFails.writeError emptyWorld "/srv/work/temp_spec.md" "# Login page\n" 0o644
      = some "open /srv/work/temp_spec.md: permission denied" ∧
    (handleSpecify envSpecifyWriteFails workServer
        (requestOf "specify" "\x7b\"feature_description\":\"login page\"\x7d")
        emptyWorld).result
      = textResult "Error saving spec file: open /srv/work/temp_spec.md: permission denied" ∧
    ¬ containsText "Error saving spec file: open /srv/work/temp_spec.md: permission denied"
        "# Login page\n" := by
  refine ⟨rfl, rfl, by decide, ?_⟩
  set_option maxRecDepth 4000 in decide

/-- C4, as the code has it: `handleSpecify`, for decoded arguments with a
non-empty `feature_description`: if the external invocation succeeds with
captured output `T` but the write of the spec file fails with error `e`, the
handler returns one text block whose text is exactly
`Error saving spec file: ` followed by `e` (so it starts with `Error`), with a
nil error, after one run and one write attempt; `T` is not put in the text. -/
theorem specify_write_failure_reports_error_only (env : Env) (s : SpecKitServer)
    (req : CallToolRequest) (w w1 : World) (args : String → String) (T e : String)
    (hdec : env.Unmarshal req.Params.Arguments ["feature_description"] = .ok args)
    (hne : args "feature_description" ≠ "")
    (hrun : env.run w "specify" ["specify", args "feature_description"] s.workingDir
      = (T, none, w1))
    (hwrite : env.writeError w1 (Join [s.workingDir, "temp_spec.md"]) T 0o644 = some e) :
    (handleSpecify env s req w).result = textResult ("Error saving spec file: " ++ e) ∧
    startsWith (handleSpecify env s req w).result.text "Error" ∧
    (handleSpecify env s req w).err = none ∧
    (handleSpecify env s req w).trace
      = [Event.Command "specify" ["specify", args "feature_description"] s.workingDir T none,
         Event.WriteFile (Join [s.workingDir, "temp_spec.md"]) T 0o644 (some e)] := by
  simp only [handleSpecify, hdec, hne, if_false, hrun, WriteFile, hwrite, textResult,
    CallToolResult.text]
  exact ⟨trivial, startsWith_append_of_left _ _ _ (by decide), trivial, trivial⟩

/-- Witness of C4 (as the code has it): the same failing write. -/
theorem specify_write_failure_reports_error_only_witness :
    (handleSpecify envSpecifyWriteFails workServer
        (requestOf "specify" "\x7b\"feature_description\":\"login page\"\x7d")
        emptyWorld).result
      = textResult ("Error saving spec file: "
          ++ "open /srv/work/temp_spec.md: permission denied") :=
  (specify_write_failure_reports_error_only envSpecifyWriteFails workServer
    (requestOf "specify" "\x7b\"feature_description\":\"login page\"\x7d")
    emptyWorld emptyWorld (fieldsOf [("feature_description", "login page")])
    "# Login page\n" "open /srv/work/temp_spec.md: permission denied"
    rfl (by decide) rfl rfl).1

/-- C7: `handleInitProject`, for decoded arguments with a non-empty
`project_name`: the first call to the outside is
`os.MkdirAll(Join(workingDir, project_name), 0755)`.  If it fails with `e`, the
handler returns the text `Error creating project directory: ` followed by
`e`, a nil error, and that call is the whole trace: the external program is not
run.  If it succeeds, the external program is run next and exactly once, in the
world that call left, where that directory exists. -/
theorem init_creates_directory_first (env : Env) (s : SpecKitServer) (req : CallToolRequest)
    (w : World) (args : String → String)
    (hdec : env.Unmarshal req.Params.Arguments ["project_name", "ai_assistant"] = .ok args)
    (hne : args "project_name" ≠ "") :
    (∀ e : String,
      env.mkdirError w (Join [s.workingDir, args "project_name"]) 0o755 = some e →
      (handleInitProject env s req w).result
        = textResult ("Error creating project directory: " ++ e) ∧
      startsWith (handleInitProject env s req w).result.text "Error" ∧
      (handleInitProject env s req w).err = none ∧
      (handleInitProject env s req w).trace
        = [Event.MkdirAll (Join [s.workingDir, args "project_name"]) 0o755 (some e)]) ∧
    (env.mkdirError w (Join [s.workingDir, args "project_name"]) 0o755 = none →
      ∃ (arg : List String) (O : String) (e : Option String),
        (MkdirAll env w (Join [s.workingDir, args "project_name"]) 0o755).2.dirs
          (Join [s.workingDir, args "project_name"]) = true ∧
        env.run (MkdirAll env w (Join [s.workingDir, args "project_name"]) 0o755).2
          "specify" arg s.workingDir = (O, e, (handleInitProject env s req w).world) ∧
        (handleInitProject env s req w).trace
          = [Event.MkdirAll (Join [s.workingDir, args "project_name"]) 0o755 none,
             Event.Command "specify" arg s.workingDir O e]) := by
  constructor
  · intro e hmk
    simp only [handleInitProject, hdec, hne, if_false, MkdirAll, hmk, textResult,
      CallToolResult.text]
    exact ⟨trivial, startsWith_append_of_left _ _ _ (by decide), trivial, trivial⟩
  · intro hmk
    rcases hM : MkdirAll env w (Join [s.workingDir, args "project_name"]) 0o755 with ⟨r, w1⟩
    have hM2 := hM
    simp only [MkdirAll, hmk, Prod.mk.injEq] at hM2
    obtain ⟨hr1, hw1⟩ := hM2
    subst hr1
    rcases hr : env.run w1 "specify"
        ["init", args "project_name", "--ai-assistant",
          if args "ai_assistant" = "" then "claude" else args "ai_assistant"]
        s.workingDir with ⟨O, e, w2⟩
    refine ⟨["init", args "project_name", "--ai-assistant",
      if args "ai_assistant" = "" then "claude" else args "ai_assistant"], O, e, ?_, ?_, ?_⟩
    · rw [← hw1]
      simp
    · simp only [handleInitProject, hdec, hne, if_false, hM, hr]
      cases e <;> rfl
    · simp only [handleInitProject, hdec, hne, if_false, hM, hr]
      cases e <;> rfl

/-- Witness of C7: `init_project` for `demo`, once when the directory can be
made and once when it cannot. -/
theorem init_creates_directory_first_witness :
    (∃ (arg : List String) (O : String) (e : Option String),
      (MkdirAll envInitDemo emptyWorld
          (Join [workServer.workingDir, fieldsOf [("project_name", "demo")] "project_name"])
          0o755).2.dirs
        (Join [workServer.workingDir, fieldsOf [("project_name", "demo")] "project_name"])
        = true ∧
      envInitDemo.run
          (MkdirAll envInitDemo emptyWorld
            (Join [workServer.workingDir, fieldsOf [("project_name", "demo")] "project_name"])
            0o755).2
          "specify" arg workServer.workingDir
        = (O, e, (handleInitProject envInitDemo workServer
            (requestOf "init_project" "\x7b\"project_name\":\"demo\"\x7d") emptyWorld).world) ∧
      (handleInitProject envInitDemo workServer
          (requestOf "init_project" "\x7b\"project_name\":\"demo\"\x7d") emptyWorld).trace
        = [Event.MkdirAll
            (Join [workServer.workingDir, fieldsOf [("project_name", "demo")] "project_name"])
            0o755 none,
           Event.Command "specify" arg workServer.workingDir O e]) ∧
    (handleInitProject envInitMkdirFails workServer
        (requestOf "init_project" "\x7b\"project_name\":\"demo\"\x7d") emptyWorld).trace
      = [Event.MkdirAll
          (Join [workServer.workingDir, fieldsOf [("project_name", "demo")] "project_name"])
          0o755 (some "mkdir /srv/work/demo: permission denied")] :=
  ⟨(init_creates_directory_first envInitDemo workServer
      (requestOf "init_project" "\x7b\"project_name\":\"demo\"\x7d") emptyWorld
      (fieldsOf [("project_name", "demo")]) rfl (by decide)).2 rfl,
    ((init_creates_directory_first envInitMkdirFails workServer
      (requestOf "init_project" "\x7b\"project_name\":\"demo\"\x7d") emptyWorld
      (fieldsOf [("project_name", "demo")]) rfl (by decide)).1
      "mkdir /srv/work/demo: permission denied" rfl).2.2.2⟩

/-- C10: every handler, on every request and whatever the libraries, the OS and
the external program answer, returns a result with exactly one content block,
that block is a text block, and the returned Go error is nil. -/
theorem single_text_block_nil_error (env : Env) (s : SpecKitServer) (req : CallToolRequest)
    (w : World) :
    ∀ th ∈ addTools, ∃ t : String,
      (th.2 env s req w).result.Content = [Content.TextContent t] ∧
      (th.2 env s req w).err = none := by
  intro th hth
  simp only [addTools, List.mem_cons, List.mem_singleton, List.mem_nil_iff, or_false] at hth
  rcases hth with rfl | rfl | rfl | rfl | rfl | rfl
  · simp only [handleInitProject, MkdirAll, textResult]
    repeat' split
    all_goals simp
  · simp only [handleSpecify, WriteFile, textResult]
    repeat' split
    all_goals simp
  · simp only [handlePlan, textResult]
    repeat' split
    all_goals simp
  · simp only [handleImplement, textResult]
    repeat' split
    all_goals simp
  · simp only [handleAnalyze, textResult]
    repeat' split
    all_goals simp
  · simp only [handleTasks, textResult]
    repeat' split
    all_goals simp

/-- Witness of C10: `specify` on a request that succeeds, and `init_project`
on raw arguments that do not decode. -/
theorem single_text_block_nil_error_witness :
    (∃ t : String,
      (handleSpecify envSpecifyOk workServer
          (requestOf "specify" "\x7b\"feature_description\":\"login page\"\x7d")
          emptyWorld).result.Content = [Content.TextContent t] ∧
      (handleSpecify envSpecifyOk workServer
          (requestOf "specify" "\x7b\"feature_description\":\"login page\"\x7d")
          emptyWorld).err = none) ∧
    (∃ t : String,
      (handleInitProject envMalformed workServer (requestOf "init_project" "project")
          emptyWorld).result.Content = [Content.TextContent t] ∧
      (handleInitProject envMalformed workServer (requestOf "init_project" "project")
          emptyWorld).err = none) :=
  ⟨single_text_block_nil_error envSpecifyOk workServer
      (requestOf "specify" "\x7b\"feature_description\":\"login page\"\x7d") emptyWorld
      (specifyTool, handleSpecify) (by simp [addTools]),
    single_text_block_nil_error envMalformed workServer
      (requestOf "init_project" "project") emptyWorld
      (initTool, handleInitProject) (List.mem_cons_self _ _)⟩

end SpecKit
